import Mathlib

/-!
# Verification of the mini-lsm-table storage engine

A shallow embedding, in Lean 4, of the Go LSM-tree key-value storage engine
(packages `domain`/`model` and the `LSMTableService` coordinator), together
with proofs about its claims.

Modelling conventions:
* Go byte strings (`[]byte`) become `List Nat` (each element a byte value).
* Go machine integers become `Nat`/`Int`, with explicit `% 2^32` / `% 2^64`
  where Go overflow semantics matter.
* `time.Now()` is nondeterministic in Go; entries here take their timestamp
  (Unix nanoseconds, an `Int` as Go's `int64`) as an explicit parameter.
* Fallible Go functions returning `error` become `Except`/`Option`.
* Go `sort.Slice` (an unspecified sorting algorithm over a comparator)
  is modelled with `List.insertionSort` over the same comparator; for the
  inputs we reason about the comparator admits a unique sorted result up to
  the properties proved.
-/

/-! ## Bytes and byte-string comparison -/

/-- Lexicographic byte-string comparison, mirroring Go's `bytes.Compare`
(used by `Entry.Compare`): negative if `a < b`, `0` if equal, positive if
`a > b`; a strict prefix compares below its extension. -/
def bytesCompare : List Nat → List Nat → Int
  | [], [] => 0
  | [], _ :: _ => -1
  | _ :: _, [] => 1
  | a :: as, b :: bs =>
    if a < b then -1 else if b < a then 1 else bytesCompare as bs

/-- `compareKeys` from the compaction code (`model` package): compares by
LENGTH FIRST and only then byte-wise.  This is the helper actually used by
`keyRangesOverlap`. -/
def compareKeys (key1 key2 : List Nat) : Int :=
  if key1.length < key2.length then -1
  else if key2.length < key1.length then 1
  else bytesCompare key1 key2

theorem bytesCompare_refl (a : List Nat) : bytesCompare a a = 0 := by
  induction a with
  | nil => rfl
  | cons x xs ih => simp [bytesCompare, ih]

theorem bytesCompare_eq_zero_iff (a b : List Nat) :
    bytesCompare a b = 0 ↔ a = b := by
  induction a generalizing b with
  | nil => cases b <;> simp [bytesCompare]
  | cons x xs ih =>
    cases b with
    | nil => simp [bytesCompare]
    | cons y ys =>
      by_cases hxy : x < y
      · simp [bytesCompare, hxy]
        intro h
        omega
      · by_cases hyx : y < x
        · simp [bytesCompare, hxy, hyx]
          intro h
          omega
        · have hxyeq : x = y := by omega
          simp [bytesCompare, hxy, hyx, hxyeq, ih]

theorem bytesCompare_swap (a b : List Nat) :
    bytesCompare a b = -(bytesCompare b a) := by
  induction a generalizing b with
  | nil => cases b <;> simp [bytesCompare]
  | cons x xs ih =>
    cases b with
    | nil => simp [bytesCompare]
    | cons y ys =>
      by_cases hxy : x < y
      · have : ¬ y < x := by omega
        simp [bytesCompare, hxy, this]
      · by_cases hyx : y < x
        · simp [bytesCompare, hxy, hyx]
        · simp [bytesCompare, hxy, hyx, ih]

theorem bytesCompare_trans_nonpos {a b c : List Nat}
    (hab : bytesCompare a b ≤ 0) (hbc : bytesCompare b c ≤ 0) :
    bytesCompare a c ≤ 0 := by
  induction a generalizing b c with
  | nil => cases c <;> simp [bytesCompare]
  | cons x xs ih =>
    cases b with
    | nil => simp [bytesCompare] at hab
    | cons y ys =>
      cases c with
      | nil => simp [bytesCompare] at hbc
      | cons z zs =>
        by_cases hxy : x < y
        · by_cases hyz : y < z
          · have hxz : x < z := by omega
            simp [bytesCompare, hxz]
          · by_cases hzy : z < y
            · simp [bytesCompare, hyz, hzy] at hbc
            · have hyzeq : y = z := by omega
              have hxz : x < z := by omega
              simp [bytesCompare, hxz]
        · by_cases hyx : y < x
          · simp [bytesCompare, hxy, hyx] at hab
          · have hxyeq : x = y := by omega
            subst hxyeq
            by_cases hyz : x < z
            · simp [bytesCompare, hyz]
            · by_cases hzy : z < x
              · simp [bytesCompare, hyz, hzy] at hbc
              · have hxzeq : x = z := by omega
                subst hxzeq
                simp [bytesCompare, hxy] at hab hbc ⊢
                exact ih hab hbc

theorem bytesCompare_pos_of_le_of_pos {a b k : List Nat}
    (hab : bytesCompare a b ≤ 0) (hak : 0 < bytesCompare a k) :
    0 < bytesCompare b k := by
  by_contra h
  push_neg at h
  have := bytesCompare_trans_nonpos hab h
  omega

/-! ## Entry (`domain.Entry`)

The Go `Entry` holds `key`, `value` (byte slices), `entryType` (a `uint8`:
`0` = PUT, `1` = DELETE) and a `time.Time` timestamp; the timestamp is
modelled by its Unix-nanosecond value. -/

structure Entry where
  key : List Nat
  value : List Nat
  entryType : Nat
  timestamp : Int
  deriving DecidableEq, Repr

/-- `NewPutEntry` (the `time.Now()` result is the explicit `ts` argument). -/
def NewPutEntry (key value : List Nat) (ts : Int) : Entry :=
  { key := key, value := value, entryType := 0, timestamp := ts }

/-- `NewDeleteEntry`: a tombstone; the value is nil (empty). -/
def NewDeleteEntry (key : List Nat) (ts : Int) : Entry :=
  { key := key, value := [], entryType := 1, timestamp := ts }

/-- `Entry.IsDeleted`: true iff the entry type is `EntryTypeDelete` (= 1). -/
def Entry.IsDeleted (e : Entry) : Bool := e.entryType == 1

/-- `Entry.Compare`: lexicographic comparison of the keys. -/
def Entry.Compare (e other : Entry) : Int := bytesCompare e.key other.key

/-- `Entry.IsNewerThan`: strict timestamp comparison (`time.After`). -/
def Entry.IsNewerThan (e other : Entry) : Bool :=
  other.timestamp < e.timestamp

/-! ## MemTable (`model.MemTable`)

The Go `MemTable` stores a `map[string]*Entry` plus `maxSize`, `size` and a
`readOnly` flag.  The map is modelled as a list of entries with (invariantly)
pairwise-distinct keys: an update replaces the entry with the matching key in
place, an insert appends.  Lookup finds the entry with the matching key. -/

inductive MemErr where
  | readOnly
  | tableFull
  deriving DecidableEq, Repr

structure MemTable where
  entries : List Entry
  maxSize : Nat
  size : Nat
  readOnly : Bool
  deriving DecidableEq, Repr

/-- `NewMemTable`. -/
def NewMemTable (maxSize : Nat) : MemTable :=
  { entries := [], maxSize := maxSize, size := 0, readOnly := false }

/-- Whether the underlying map already holds `key` (`_, exists := mt.entries[keyStr]`). -/
def memContainsKey (mt : MemTable) (key : List Nat) : Bool :=
  mt.entries.any (fun e => e.key == key)

/-- Map assignment `mt.entries[keyStr] = entry`: replace in place if the key
is present, otherwise add. -/
def listUpdateEntry : List Entry → Entry → List Entry
  | [], e => [e]
  | x :: xs, e => if x.key == e.key then e :: xs else x :: listUpdateEntry xs e

/-- Common body of `MemTable.Put` and `MemTable.Delete` (the two Go methods
duplicate this logic verbatim, differing only in the entry constructed):
reject when read-only; reject with `ErrTableFull` when the key is new and
`size >= maxSize`; otherwise store, incrementing `size` only for a new key. -/
def memWrite (mt : MemTable) (e : Entry) : Except MemErr MemTable :=
  if mt.readOnly then .error .readOnly
  else if ¬ memContainsKey mt e.key ∧ mt.maxSize ≤ mt.size then .error .tableFull
  else .ok { mt with
              entries := listUpdateEntry mt.entries e,
              size := if memContainsKey mt e.key then mt.size else mt.size + 1 }

/-- `MemTable.Put`. -/
def MemTable.Put (mt : MemTable) (key value : List Nat) (ts : Int) :
    Except MemErr MemTable :=
  memWrite mt (NewPutEntry key value ts)

/-- `MemTable.Delete`: stores a tombstone under the same capacity rules. -/
def MemTable.Delete (mt : MemTable) (key : List Nat) (ts : Int) :
    Except MemErr MemTable :=
  memWrite mt (NewDeleteEntry key ts)

/-- `MemTable.Get`: the stored entry (tombstones included), or nothing
(`ErrKeyNotFound`). -/
def MemTable.Get (mt : MemTable) (key : List Nat) : Option Entry :=
  mt.entries.find? (fun e => e.key == key)

/-- `MemTable.SetReadOnly`. -/
def MemTable.SetReadOnly (mt : MemTable) : MemTable :=
  { mt with readOnly := true }

/-- `MemTable.GetAllEntries` (map-iteration order is abstracted as the stored
list order; every consumer sorts the result before use). -/
def MemTable.GetAllEntries (mt : MemTable) : List Entry :=
  mt.entries

/-! ## BloomFilter (`domain.BloomFilter`)

Go stores `bitArray []bool`, `size uint32`, `hashFuncs int`.  The sizing
formula of `NewBloomFilter` uses `math.Log` over float64 and is not modelled;
the claims quantify over any filter whose `bitArray` has length `size`
(which `NewBloomFilter` guarantees) with `size > 0` (guaranteed for any
positive capacity at the false-positive rate 0.01 used by the builder).
All 32-bit arithmetic is carried out modulo `2^32` as in Go. -/

def M32 : Nat := 2 ^ 32

/-- FNV-1a 32-bit (`hash/fnv.New32a`): xor the byte, then multiply. -/
def fnv32a (key : List Nat) : Nat :=
  key.foldl (fun h b => ((h ^^^ b) * 16777619) % M32) 2166136261

/-- FNV-1 32-bit (`hash/fnv.New32`): multiply, then xor the byte. -/
def fnv32 (key : List Nat) : Nat :=
  key.foldl (fun h b => (((h * 16777619) % M32) ^^^ b) % M32) 2166136261

structure BloomFilter where
  bitArray : List Bool
  size : Nat
  hashFuncs : Nat
  deriving Repr

/-- The bit probed by the `i`-th hash function for `key`:
`(hashes[0] + uint32(i)*hashes[1]) % bf.size`, with the sum and product
taken in `uint32` arithmetic. -/
def bloomIndex (bf : BloomFilter) (key : List Nat) (i : Nat) : Nat :=
  ((fnv32a key + i * fnv32 key) % M32) % bf.size

/-- `BloomFilter.Add`: sets `hashFuncs` bits. -/
def BloomFilter.Add (bf : BloomFilter) (key : List Nat) : BloomFilter :=
  let newBits := (List.range bf.hashFuncs).foldl
    (fun arr i => arr.set (bloomIndex bf key i) true) bf.bitArray
  { bf with bitArray := newBits }

/-- `BloomFilter.Contains`: false if any probed bit is unset. -/
def BloomFilter.Contains (bf : BloomFilter) (key : List Nat) : Bool :=
  (List.range bf.hashFuncs).all
    (fun i => bf.bitArray.getD (bloomIndex bf key i) false)

/-! ## WAL record encoding (`domain.WAL`)

`WriteEntry` appends, little-endian:
`uint32 key_len | key | uint32 value_len | value | uint8 kind | int64 ts`.
The file is modelled as the list of bytes written. -/

/-- Little-endian bytes of a `uint32`. -/
def u32le (n : Nat) : List Nat :=
  [n % 256, n / 256 % 256, n / 256 ^ 2 % 256, n / 256 ^ 3 % 256]

/-- Little-endian bytes of a `uint64`. -/
def u64le (n : Nat) : List Nat :=
  [n % 256, n / 256 % 256, n / 256 ^ 2 % 256, n / 256 ^ 3 % 256,
   n / 256 ^ 4 % 256, n / 256 ^ 5 % 256, n / 256 ^ 6 % 256, n / 256 ^ 7 % 256]

/-- Little-endian two's-complement bytes of an `int64` (Go writes the
timestamp as `int64`). -/
def i64le (ts : Int) : List Nat :=
  u64le ((ts % (2 ^ 64 : Int)).toNat)

/-- The single byte written for the `uint8` entry type. -/
def entryTypeByte (e : Entry) : Nat := e.entryType % 256

/-- `WAL.WriteEntry`: the bytes appended to the log for one entry. -/
def encodeEntry (e : Entry) : List Nat :=
  u32le e.key.length ++ e.key ++ u32le e.value.length ++ e.value
    ++ [entryTypeByte e] ++ i64le e.timestamp

/-- Writing `e₁ … eₙ` in order appends their encodings in order. -/
def encodeEntries : List Entry → List Nat
  | [] => []
  | e :: rest => encodeEntry e ++ encodeEntries rest

/-- Read-error outcomes, mirroring Go's distinction between `io.EOF`
(zero bytes were available for the read) and `io.ErrUnexpectedEOF`
(some but not all requested bytes were available). -/
inductive ReadErr where
  | eofClean
  | eofUnexpected
  deriving DecidableEq, Repr

/-- `io.ReadFull` on the byte stream: reading `0` bytes always succeeds;
otherwise `io.EOF` when the stream is empty, `io.ErrUnexpectedEOF` when it
holds fewer than `n` bytes.  (`binary.Read` of a `uint32`/`uint8`/`int64`
is `ReadFull` of 4/1/8 bytes followed by the little-endian decode.) -/
def readBytesFull (n : Nat) (s : List Nat) : Except ReadErr (List Nat × List Nat) :=
  if n = 0 then .ok ([], s)
  else if s.length = 0 then .error .eofClean
  else if s.length < n then .error .eofUnexpected
  else .ok (s.take n, s.drop n)

/-- Little-endian decode of a byte list into a `Nat`. -/
def decodeLE (bytes : List Nat) : Nat :=
  bytes.foldr (fun b acc => b + 256 * acc) 0

/-- Interpret a `uint64` bit pattern as an `int64`. -/
def decodeI64 (n : Nat) : Int :=
  if n < 2 ^ 63 then (n : Int) else (n : Int) - 2 ^ 64

/-- `WAL.readEntry`: reads one record field by field; the error of the
first failing field read propagates exactly as in Go. -/
def readEntryBytes (s : List Nat) : Except ReadErr (Entry × List Nat) :=
  match readBytesFull 4 s with
  | .error err => .error err
  | .ok (klb, s1) =>
    match readBytesFull (decodeLE klb) s1 with
    | .error err => .error err
    | .ok (key, s2) =>
      match readBytesFull 4 s2 with
      | .error err => .error err
      | .ok (vlb, s3) =>
        match readBytesFull (decodeLE vlb) s3 with
        | .error err => .error err
        | .ok (value, s4) =>
          match readBytesFull 1 s4 with
          | .error err => .error err
          | .ok (tb, s5) =>
            match readBytesFull 8 s5 with
            | .error err => .error err
            | .ok (tsb, s6) =>
              .ok ({ key := key, value := value, entryType := tb.headD 0,
                     timestamp := decodeI64 (decodeLE tsb) }, s6)

/-- The loop of `WAL.Recover`: `io.EOF` ends recovery cleanly with the
entries read so far; any other error is returned as a fatal error.
`fuel` bounds the recursion; `walRecover` supplies enough for any input. -/
def recoverAux : Nat → List Nat → List Entry → Except Unit (List Entry)
  | 0, _, _ => .error ()
  | fuel + 1, s, acc =>
    match readEntryBytes s with
    | .error .eofClean => .ok acc.reverse
    | .error .eofUnexpected => .error ()
    | .ok (e, rest) => recoverAux fuel rest (e :: acc)

/-- `WAL.Recover` over the bytes of the log file. -/
def walRecover (s : List Nat) : Except Unit (List Entry) :=
  recoverAux (s.length + 1) s []

/-! ## SSTable data region and `SSTable.Get` scan (`model.SSTable`)

An SSTable's data region uses the same record layout as the WAL; the file is
modelled by its list of entries in stored order (the builder writes them
sorted by key).  `SSTable.Get` consults the Bloom filter, seeks to a block
index offset, and scans forward; the Bloom filter never reports a false
negative (theorem `bloom_contains_after_add` below) and the block-index
offset only skips records with keys strictly below the target, so the
functional result of `Get` is the forward scan from the start of the data
region, which `sstGet` mirrors (first key equal to the target wins; a key
above the target ends the scan). -/

structure SSTableM where
  entries : List Entry
  deriving DecidableEq, Repr

/-- The scan loop of `SSTable.Get`: return the entry whose key equals the
target; stop as soon as a key exceeds the target. -/
def sstGet : List Entry → List Nat → Option Entry
  | [], _ => none
  | e :: rest, key =>
    let cmp := bytesCompare e.key key
    if cmp = 0 then some e
    else if 0 < cmp then none
    else sstGet rest key

/-- `SSTable.GetAllEntries`: the stored entries in file order. -/
def SSTableM.GetAllEntries (sst : SSTableM) : List Entry := sst.entries

/-- The key-only comparator of `SSTableBuilder.Build`
(`entries[i].Compare(entries[j]) < 0`), as the matching total reflexive
relation used by the deterministic model of `sort.Slice`. -/
def builderLe (e1 e2 : Entry) : Prop := bytesCompare e1.key e2.key ≤ 0

instance : DecidableRel builderLe := fun e1 e2 => by
  unfold builderLe; infer_instance

instance : IsTotal Entry builderLe where
  total e1 e2 := by
    unfold builderLe
    rcases le_or_lt (bytesCompare e1.key e2.key) 0 with h | h
    · exact Or.inl h
    · right
      rw [bytesCompare_swap]
      omega

instance : IsTrans Entry builderLe where
  trans _ _ _ := bytesCompare_trans_nonpos

/-- `SSTableBuilder.Build` without the file I/O: sort the collected entries
by key ascending and store them.  (The Bloom filter and block index the
builder also produces are covered by their own components above.) -/
def buildSSTable (entries : List Entry) : SSTableM :=
  { entries := List.insertionSort builderLe entries }

/-! ## CompactionManager (`model.CompactionManager`) -/

/-- `CompactionManager.keyRangesOverlap`: `[min1,max1]` and `[min2,max2]`
overlap iff `max1 >= min2 && max2 >= min1`, both compared with the
length-first `compareKeys` helper. -/
def keyRangesOverlap (min1 max1 min2 max2 : List Nat) : Bool :=
  0 ≤ compareKeys max1 min2 ∧ 0 ≤ compareKeys max2 min1

/-- The overlap predicate the spec mandates: the same inequalities under
strict lexicographic byte comparison (`bytesCompare`).  Modelled from the
spec for comparison against `keyRangesOverlap`. -/
def lexRangesOverlap (min1 max1 min2 max2 : List Nat) : Bool :=
  0 ≤ bytesCompare max1 min2 ∧ 0 ≤ bytesCompare max2 min1

/-- The comparator of `ExecuteCompaction`'s `sort.Slice`: ascending by key,
and for equal keys the newer timestamp first (`IsNewerThan`), as the
matching total reflexive relation. -/
def compactionLe (e1 e2 : Entry) : Prop :=
  bytesCompare e1.key e2.key < 0 ∨
    (bytesCompare e1.key e2.key = 0 ∧ e2.timestamp ≤ e1.timestamp)

instance : DecidableRel compactionLe := fun e1 e2 => by
  unfold compactionLe; infer_instance

instance : IsTotal Entry compactionLe where
  total e1 e2 := by
    unfold compactionLe
    rcases lt_trichotomy (bytesCompare e1.key e2.key) 0 with h | h | h
    · exact Or.inl (Or.inl h)
    · have h2 : bytesCompare e2.key e1.key = 0 := by
        rw [bytesCompare_swap]; omega
      rcases le_total e2.timestamp e1.timestamp with ht | ht
      · exact Or.inl (Or.inr ⟨h, ht⟩)
      · exact Or.inr (Or.inr ⟨h2, ht⟩)
    · right
      left
      rw [bytesCompare_swap]
      omega

instance : IsTrans Entry compactionLe where
  trans e1 e2 e3 h12 h23 := by
    unfold compactionLe at h12 h23 ⊢
    rcases h12 with h12 | ⟨h12, t12⟩
    · rcases h23 with h23 | ⟨h23, t23⟩
      · left
        have hswap := bytesCompare_swap e1.key e2.key
        have := bytesCompare_trans_nonpos (a := e1.key) (b := e2.key) (c := e3.key)
          (by omega) (by omega)
        rcases lt_or_le (bytesCompare e1.key e3.key) 0 with h | h
        · exact h
        · exfalso
          have heq : bytesCompare e1.key e3.key = 0 := by omega
          rw [bytesCompare_eq_zero_iff] at heq
          rw [← heq, bytesCompare_swap] at h23
          omega
      · have heq : e2.key = e3.key := by
          rw [← bytesCompare_eq_zero_iff e2.key e3.key]; exact h23
        left
        rw [← heq]
        exact h12
    · have heq : e1.key = e2.key := by
        rw [← bytesCompare_eq_zero_iff e1.key e2.key]; exact h12
      rcases h23 with h23 | ⟨h23, t23⟩
      · left
        rw [heq]
        exact h23
      · right
        constructor
        · rw [heq]; exact h23
        · omega

/-- `CompactionManager.removeDuplicatesAndTombstones`, with the `seenKeys`
set carried explicitly: skip an entry whose key was already seen; otherwise
mark it seen and keep it unless it is a tombstone. -/
def removeDupsAux : List Entry → List (List Nat) → List Entry
  | [], _ => []
  | e :: rest, seen =>
    if e.key ∈ seen then removeDupsAux rest seen
    else if e.IsDeleted then removeDupsAux rest (e.key :: seen)
    else e :: removeDupsAux rest (e.key :: seen)

/-- `removeDuplicatesAndTombstones` (called with an empty seen-set). -/
def removeDuplicatesAndTombstones (entries : List Entry) : List Entry :=
  removeDupsAux entries []

/-- Concatenation of all input tables' entries
(`allEntries = append(allEntries, entries...)` over the inputs). -/
def joinEntries : List (List Entry) → List Entry
  | [] => []
  | l :: rest => l ++ joinEntries rest

/-- `CompactionManager.ExecuteCompaction`, with each input/output SSTable
represented by its entry list: error on an empty input list; merge, sort by
key (ties: newer timestamp first), remove duplicates and tombstones; if
nothing survives return no output tables, otherwise build one output table
with the surviving entries. -/
def ExecuteCompaction (inputTables : List (List Entry)) :
    Except Unit (List SSTableM) :=
  if inputTables.isEmpty then .error ()
  else
    let allEntries := joinEntries inputTables
    let sorted := List.insertionSort compactionLe allEntries
    let compactedEntries := removeDuplicatesAndTombstones sorted
    if compactedEntries.isEmpty then .ok []
    else .ok [buildSSTable compactedEntries]

/-! ## Engine (`application.LSMTableService`)

Sequential model of the coordinator.  The WAL handle is represented by the
list of entries appended to the current WAL file since its creation; the
per-level SSTable registry (`map[int][]*SSTable`) by a function from level
to table list (Go map lookup of a missing level yields an empty slice).

Background work: `flushImmutableTableInternal` runs synchronously inside
`rotateMemTable` and is modelled as such; the compaction it may dispatch
runs on a separate goroutine (`go s.runCompaction()`) and is not part of
the foreground operation sequence modelled here. -/

structure LSM where
  activeTable : MemTable
  immutableTables : List MemTable
  sstablesByLevel : Nat → List SSTableM
  wal : List Entry
  walCounter : Nat
  maxTableSize : Nat

/-- `createNewActiveTable`: close the current WAL, open `wal_<counter>.log`
(fresh contents), bump the counter, and install a fresh MemTable. -/
def createNewActiveTable (s : LSM) : LSM :=
  { s with wal := [], walCounter := s.walCounter + 1,
           activeTable := NewMemTable s.maxTableSize }

/-- `NewLSMTableService`: empty registry, then `createNewActiveTable`. -/
def NewLSMTableService (maxTableSize : Nat) : LSM :=
  createNewActiveTable
    { activeTable := NewMemTable maxTableSize, immutableTables := [],
      sstablesByLevel := fun _ => [], wal := [], walCounter := 0,
      maxTableSize := maxTableSize }

/-- `flushImmutableTableInternal`: pop the oldest immutable table; if it has
entries, build a level-0 SSTable from them and append it to level 0.  (The
`ShouldCompact` check dispatching background compaction is outside the
sequential model, see above.) -/
def flushImmutableTableInternal (s : LSM) : LSM :=
  match s.immutableTables with
  | [] => s
  | t :: rest =>
    if t.GetAllEntries.isEmpty then { s with immutableTables := rest }
    else
      { s with immutableTables := rest,
               sstablesByLevel := fun lvl =>
                 if lvl = 0 then
                   s.sstablesByLevel 0 ++ [buildSSTable t.GetAllEntries]
                 else s.sstablesByLevel lvl }

/-- `rotateMemTable`: seal the active table, append it to the immutable
queue, create a new WAL + active table, flush the oldest immutable table. -/
def rotateMemTable (s : LSM) : LSM :=
  flushImmutableTableInternal
    (createNewActiveTable
      { s with activeTable := s.activeTable.SetReadOnly,
               immutableTables := s.immutableTables ++ [s.activeTable.SetReadOnly] })

/-- The retry after rotation: try the (fresh) active table once more; a
second failure leaves the rotated state and surfaces an error, which the
model drops. -/
def svcWriteRetry (s : LSM) (e : Entry) : LSM :=
  match memWrite s.activeTable e with
  | .ok mt => { s with activeTable := mt }
  | .error _ => s

/-- Insertion into the active table with rotate-and-retry-once on
`ErrTableFull` (shared by `Put`/`Delete` and by the `Recovery` replay
loop, which performs exactly these steps without a WAL append). -/
def svcWriteCore (s : LSM) (e : Entry) : LSM :=
  match memWrite s.activeTable e with
  | .ok mt => { s with activeTable := mt }
  | .error .tableFull => svcWriteRetry (rotateMemTable s) e
  | .error .readOnly => s

/-- Common body of `LSMTableService.Put` and `LSMTableService.Delete`:
append the entry to the current WAL, then insert into the active table
(rotating and retrying once on `ErrTableFull`). -/
def svcWrite (s : LSM) (e : Entry) : LSM :=
  svcWriteCore { s with wal := s.wal ++ [e] } e

/-- `LSMTableService.Put`. -/
def svcPut (s : LSM) (key value : List Nat) (ts : Int) : LSM :=
  svcWrite s (NewPutEntry key value ts)

/-- `LSMTableService.Delete`. -/
def svcDelete (s : LSM) (key : List Nat) (ts : Int) : LSM :=
  svcWrite s (NewDeleteEntry key ts)

/-- First hit over a list checked back-to-front ("newest first", the
`for i := len-1; i >= 0; i--` loops of `Get`). -/
def findRev (f : α → Option Entry) : List α → Option Entry
  | [] => none
  | x :: xs => findRev f xs <|> f x

/-- The SSTable loop of `Get`: levels `0 ≤ level < 10` in ascending order,
tables within a level newest first. -/
def lookupLevels (byLevel : Nat → List SSTableM) (key : List Nat) :
    Nat → Nat → Option Entry
  | _, 0 => none
  | lvl, cnt + 1 =>
    findRev (fun t => sstGet t.entries key) (byLevel lvl) <|>
      lookupLevels byLevel key (lvl + 1) cnt

/-- The layered read path of `LSMTableService.Get`, returning the first
entry found: active table, immutable tables newest first, then SSTables by
level. -/
def svcGetEntry (s : LSM) (key : List Nat) : Option Entry :=
  s.activeTable.Get key <|>
    findRev (fun t => t.Get key) s.immutableTables <|>
      lookupLevels s.sstablesByLevel key 0 10

/-- `LSMTableService.Get`: a tombstone hit (or no hit) is `ErrKeyNotFound`
(`none`); otherwise the entry's value. -/
def svcGet (s : LSM) (key : List Nat) : Option (List Nat) :=
  match svcGetEntry s key with
  | none => none
  | some e => if e.IsDeleted then none else some e.value

/-! ## Foreground operation sequences -/

inductive Op where
  | put (key value : List Nat)
  | del (key : List Nat)
  deriving DecidableEq, Repr

/-- The key an operation touches. -/
def Op.key : Op → List Nat
  | .put k _ => k
  | .del k => k

/-- Apply one foreground operation; `ts` stands for the `time.Now()` value
observed during it. -/
def applyOp (s : LSM) (op : Op) (ts : Int) : LSM :=
  match op with
  | .put k v => svcPut s k v ts
  | .del k => svcDelete s k ts

/-- Run a sequence of foreground operations with strictly increasing
timestamps starting at `t0`. -/
def runOps (s : LSM) : List Op → Int → LSM
  | [], _ => s
  | op :: rest, t0 => runOps (applyOp s op t0) rest (t0 + 1)

/-! ## Recovery (`LSMTableService.Recovery`)

The on-disk WAL directory is modelled as `walFiles : Nat → List Entry`,
giving the recovered entry list of `wal_<n>.log` (empty when the file is
absent).  `NewLSMTableService` opens `wal_0.log` (append mode, keeping any
existing contents) as the current WAL; `Recovery` calls
`loadExistingSSTables` (which only logs the file names it finds and loads
nothing) and then replays `s.wal.Recover()` — the entries of that single
current WAL file — into the active table, rotating on `ErrTableFull`.
No other `wal_<n>.log` file is ever read. -/

/-- One replayed entry: `activeTable.Delete(entry.Key())` for a tombstone,
else `activeTable.Put(entry.Key(), entry.Value())`; on `ErrTableFull`
rotate and retry once.  (Replay constructs a fresh entry whose `time.Now()`
timestamp is modelled by the recovered entry's own timestamp.) -/
def replayWrite (s : LSM) (e : Entry) : LSM :=
  svcWriteCore s e

/-- The replay loop of `Recovery`. -/
def replayEntries (s : LSM) : List Entry → LSM
  | [] => s
  | e :: rest =>
    let s1 := if e.IsDeleted then replayWrite s (NewDeleteEntry e.key e.timestamp)
              else replayWrite s (NewPutEntry e.key e.value e.timestamp)
    replayEntries s1 rest

/-- `Recovery` invoked on a freshly constructed service over the given
on-disk WAL files: only `walFiles 0` (the current WAL, `wal_0.log`) is
replayed. -/
def ServiceRecovery (walFiles : Nat → List Entry) (maxTableSize : Nat) : LSM :=
  replayEntries (NewLSMTableService maxTableSize) (walFiles 0)

/-- One MemTable operation applied the way the engine applies it
(an error leaves the table as it was). -/
def memApply (mt : MemTable) (oi : Op × Int) : MemTable :=
  match oi.1 with
  | .put k v =>
    match mt.Put k v oi.2 with
    | .ok mt2 => mt2
    | .error _ => mt
  | .del k =>
    match mt.Delete k oi.2 with
    | .ok mt2 => mt2
    | .error _ => mt

/-- A sequence of MemTable put/delete operations. -/
def memApplyOps (mt : MemTable) (ops : List (Op × Int)) : MemTable :=
  ops.foldl memApply mt

/-- Well-formedness of an entry as Go's types guarantee it: slice lengths
fit a `uint32`, the entry type fits a `uint8` (the constructors use 0/1),
and the timestamp fits an `int64`. -/
def wfEntry (e : Entry) : Prop :=
  e.key.length < 2 ^ 32 ∧ e.value.length < 2 ^ 32 ∧ e.entryType < 256 ∧
    -(2 ^ 63) ≤ e.timestamp ∧ e.timestamp < 2 ^ 63

instance (e : Entry) : Decidable (wfEntry e) := by
  unfold wfEntry; infer_instance

/-- Within a set of merged entries, entries for the same key have distinct
timestamps (Go relies on `time.Now()` ties being broken; "the newest
version of a key" is only well defined under this assumption). -/
def pairwiseDistinctTimestamps (l : List Entry) : Prop :=
  ∀ e1 ∈ l, ∀ e2 ∈ l, e1.key = e2.key → e1.timestamp = e2.timestamp → e1 = e2

instance (l : List Entry) : Decidable (pairwiseDistinctTimestamps l) := by
  unfold pairwiseDistinctTimestamps; infer_instance

/-- `e` is the newest version of its key within `l`. -/
def isNewestFor (l : List Entry) (e : Entry) : Prop :=
  e ∈ l ∧ ∀ e2 ∈ l, e2.key = e.key → e2 = e ∨ e2.timestamp < e.timestamp

instance (l : List Entry) (e : Entry) : Decidable (isNewestFor l e) := by
  unfold isNewestFor; infer_instance

/-- The per-MemTable map invariant: pairwise-distinct keys (a Go map cannot
hold a key twice). -/
def MemKeysNodup (mt : MemTable) : Prop :=
  (mt.entries.map (fun e => e.key)).Nodup

instance (mt : MemTable) : Decidable (MemKeysNodup mt) := by
  unfold MemKeysNodup; infer_instance

/-- Engine-state well-formedness maintained by every foreground operation:
the active table is mutable and every MemTable in the engine holds
pairwise-distinct keys. -/
def wfLSM (s : LSM) : Prop :=
  s.activeTable.readOnly = false ∧ MemKeysNodup s.activeTable ∧
    ∀ t ∈ s.immutableTables, MemKeysNodup t

/-- `SSTableMetadata.MinKey`: the first entry's key after the builder's
sort (the stored list is already in sorted order). -/
def sstMinKey (sst : SSTableM) : List Nat :=
  match sst.entries with
  | [] => []
  | e :: _ => e.key

/-- `SSTableMetadata.MaxKey`: the last entry's key. -/
def sstMaxKey (sst : SSTableM) : List Nat :=
  match sst.entries.getLast? with
  | none => []
  | some e => e.key

/-- `CompactionManager.findOverlappingTables`: take the minimum `MinKey`
and maximum `MaxKey` over the input tables (compared with the length-first
`compareKeys` helper), then keep the candidates whose range overlaps per
`keyRangesOverlap`. -/
def findOverlappingTables (inputTables candidateTables : List SSTableM) :
    List SSTableM :=
  match inputTables with
  | [] => []
  | t0 :: rest =>
    if candidateTables.isEmpty then []
    else
      candidateTables.filter (fun t =>
        keyRangesOverlap
          (rest.foldl (fun mk t2 =>
            if compareKeys (sstMinKey t2) mk < 0 then sstMinKey t2 else mk)
            (sstMinKey t0))
          (rest.foldl (fun mk t2 =>
            if 0 < compareKeys (sstMaxKey t2) mk then sstMaxKey t2 else mk)
            (sstMaxKey t0))
          (sstMinKey t) (sstMaxKey t))

/-- The `CompactionTask` produced by `selectLeveledCompaction`'s level-0
branch: every level-0 table plus the level-1 tables whose key range
overlaps their union range; `OutputLevel = 1`.  The input tables are kept
split by their `Metadata().Level`, which `updateSSTablesAfterCompaction`
uses for removal. -/
structure LeveledL0Task where
  level0Inputs : List SSTableM
  level1Inputs : List SSTableM
  deriving DecidableEq, Repr

/-- `CompactionManager.selectLeveledCompaction`, level-0 branch: when
level 0 holds at least `maxSSTablesLevel0` (= 4) tables, compact all of
them together with the overlapping level-1 tables into level 1.  (The
branch for levels ≥ 1 compares total file sizes against float64 byte
budgets (`maxSizeForLevel`); it is unreachable whenever the level-0 check
fires first, as at every state this development evaluates, and is
modelled as selecting no task.) -/
def selectLeveledCompactionL0 (byLevel : Nat → List SSTableM) :
    Option LeveledL0Task :=
  if 4 ≤ (byLevel 0).length then
    some { level0Inputs := byLevel 0,
           level1Inputs := findOverlappingTables (byLevel 0) (byLevel 1) }
  else none

/-- Removal of one input table from its level's list
(`updateSSTablesAfterCompaction` finds the first matching table and
removes it). -/
def removeFirstTable : List SSTableM → SSTableM → List SSTableM
  | [], _ => []
  | x :: xs, t => if x == t then xs else x :: removeFirstTable xs t

def removeTablesFrom (l : List SSTableM) (ts : List SSTableM) : List SSTableM :=
  ts.foldl removeFirstTable l

/-- `runCompaction` under the leveled strategy when level 0 is over
threshold: select the task, execute it, and update the registry
(`updateSSTablesAfterCompaction`: remove each input table from its
metadata level, append the outputs at the output level, here 1).  No task
or a failed execution leaves the state unchanged. -/
def runCompactionL0 (s : LSM) : LSM :=
  match selectLeveledCompactionL0 s.sstablesByLevel with
  | none => s
  | some task =>
    match ExecuteCompaction
        ((task.level0Inputs ++ task.level1Inputs).map SSTableM.GetAllEntries) with
    | .error _ => s
    | .ok outputs =>
      { s with sstablesByLevel := fun lvl =>
          if lvl = 0 then
            removeTablesFrom (s.sstablesByLevel 0) task.level0Inputs
          else if lvl = 1 then
            removeTablesFrom (s.sstablesByLevel 1) task.level1Inputs ++ outputs
          else s.sstablesByLevel lvl }

/-! # Claims -/

/-- **C7** (counter-evidence).  The overlap predicate used by compaction
task selection does NOT decide `b1 ≥ a2 ∧ b2 ≥ a1` under strict
lexicographic byte comparison: for the ranges `["a","b"]` and `["aa","aa"]`
(bytes `97`/`98`) the lexicographic predicate holds — `"aa"` lies between
`"a"` and `"b"` — but `keyRangesOverlap` answers `false`, because its
`compareKeys` helper orders by length first, making `"b" < "aa"`. -/
theorem keyRangesOverlap_diverges_from_lexicographic :
    keyRangesOverlap [97] [98] [97, 97] [97, 97] = false ∧
      lexRangesOverlap [97] [98] [97, 97] [97, 97] = true := by decide

/-- **C5** (counter-evidence).  On-disk state: `wal_0.log` holds
`put("a","0")`, `wal_1.log` holds `put("x","1")` — both durably written
before the restart.  `Recovery` on a fresh engine replays only the current
WAL (`wal_0.log`): the key `"a"` is retrievable afterwards, but `"x"`,
which lives only in `wal_1.log`, is not, contradicting the claim that
every `wal_0.log .. wal_n.log` is replayed. -/
theorem recovery_ignores_later_wal_files :
    svcGet (ServiceRecovery
        (fun n => if n = 0 then [NewPutEntry [97] [48] 0]
                  else if n = 1 then [NewPutEntry [120] [49] 1] else [])
        5)
      [120] = none ∧
    svcGet (ServiceRecovery
        (fun n => if n = 0 then [NewPutEntry [97] [48] 0]
                  else if n = 1 then [NewPutEntry [120] [49] 1] else [])
        5)
      [97] = some [48] := by decide

/-! ### Bloom filter lemmas (C9) -/

theorem foldl_set_length (f : Nat → Nat) (l : List Nat) (arr : List Bool) :
    (l.foldl (fun a i => a.set (f i) true) arr).length = arr.length := by
  induction l generalizing arr with
  | nil => rfl
  | cons x xs ih => simp [List.foldl_cons, ih, List.length_set]

theorem getD_set_true_mono (arr : List Bool) (i j : Nat)
    (h : arr.getD i false = true) : (arr.set j true).getD i false = true := by
  by_cases hij : i = j
  · subst hij
    by_cases hlt : i < arr.length
    · rw [List.getD_eq_getElem?_getD, List.getElem?_set_self (by simpa using hlt)]
      rfl
    · rw [List.getD_eq_getElem?_getD] at h ⊢
      rw [List.getElem?_set_self]
      · rfl
      · simpa using Nat.lt_of_lt_of_le (by
          by_contra hc
          push_neg at hc
          rw [List.getElem?_eq_none (by omega)] at h
          simp at h) (le_refl _)
  · rw [List.getD_eq_getElem?_getD, List.getElem?_set_ne (by omega)]
    rw [List.getD_eq_getElem?_getD] at h
    exact h

theorem foldl_set_true_mono (f : Nat → Nat) (l : List Nat) (arr : List Bool)
    (i : Nat) (h : arr.getD i false = true) :
    (l.foldl (fun a j => a.set (f j) true) arr).getD i false = true := by
  induction l generalizing arr with
  | nil => exact h
  | cons x xs ih => exact ih _ (getD_set_true_mono arr i (f x) h)

theorem foldl_set_true_self (f : Nat → Nat) (l : List Nat) (arr : List Bool)
    (i : Nat) (hmem : i ∈ l) (hlt : f i < arr.length) :
    (l.foldl (fun a j => a.set (f j) true) arr).getD (f i) false = true := by
  induction l generalizing arr with
  | nil => cases hmem
  | cons x xs ih =>
    rw [List.foldl_cons]
    rcases List.mem_cons.1 hmem with heq | hrest
    · subst heq
      apply foldl_set_true_mono
      rw [List.getD_eq_getElem?_getD, List.getElem?_set_self hlt]
      rfl
    · exact ih _ hrest (by simpa [List.length_set] using hlt)

theorem bloomAdd_bitArray_length (bf : BloomFilter) (k : List Nat) :
    (bf.Add k).bitArray.length = bf.bitArray.length := by
  simp [BloomFilter.Add, foldl_set_length]

theorem bloomAdd_size (bf : BloomFilter) (k : List Nat) :
    (bf.Add k).size = bf.size := rfl

theorem bloomAdd_hashFuncs (bf : BloomFilter) (k : List Nat) :
    (bf.Add k).hashFuncs = bf.hashFuncs := rfl

/-- Adding any key never clears a probed bit, so `Contains` is monotone. -/
theorem bloomContains_mono (bf : BloomFilter) (k k2 : List Nat)
    (h : bf.Contains k = true) : (bf.Add k2).Contains k = true := by
  unfold BloomFilter.Contains at h ⊢
  rw [List.all_eq_true] at h ⊢
  intro i hi
  rw [bloomAdd_hashFuncs] at hi
  have hidx : bloomIndex (bf.Add k2) k i = bloomIndex bf k i := rfl
  rw [hidx]
  exact foldl_set_true_mono _ _ _ _ (h i hi)

/-- Immediately after `add(k)`, every probed bit for `k` is set. -/
theorem bloomContains_after_add (bf : BloomFilter) (k : List Nat)
    (hsize : 0 < bf.size) (hlen : bf.bitArray.length = bf.size) :
    (bf.Add k).Contains k = true := by
  unfold BloomFilter.Contains
  rw [List.all_eq_true]
  intro i hi
  rw [bloomAdd_hashFuncs] at hi
  have hidx : bloomIndex (bf.Add k) k i = bloomIndex bf k i := rfl
  rw [hidx]
  unfold BloomFilter.Add
  apply foldl_set_true_self (bloomIndex bf k) _ _ i hi
  unfold bloomIndex
  rw [hlen]
  exact Nat.mod_lt _ hsize

/-- `Contains` stays true under any further sequence of `add` calls. -/
theorem bloomContains_foldl_mono (keys : List (List Nat)) (bf : BloomFilter)
    (k : List Nat) (h : bf.Contains k = true) :
    (keys.foldl BloomFilter.Add bf).Contains k = true := by
  induction keys generalizing bf with
  | nil => exact h
  | cons k0 rest ih => exact ih (bf.Add k0) (bloomContains_mono bf k k0 h)

/-- **C9**.  No false negatives: for any Bloom filter whose bit array has
its stated (positive) size — as `NewBloomFilter` produces for any positive
capacity — and any sequence of `add` calls that includes `add(k)`,
`contains(k)` returns true. -/
theorem bloom_no_false_negatives (bf : BloomFilter) (keys : List (List Nat))
    (k : List Nat) (hsize : 0 < bf.size)
    (hlen : bf.bitArray.length = bf.size) (hmem : k ∈ keys) :
    (keys.foldl BloomFilter.Add bf).Contains k = true := by
  induction keys generalizing bf with
  | nil => cases hmem
  | cons k0 rest ih =>
    rw [List.foldl_cons]
    rcases List.mem_cons.1 hmem with heq | hrest
    · subst heq
      exact bloomContains_foldl_mono rest (bf.Add k) k
        (bloomContains_after_add bf k hsize hlen)
    · exact ih (bf.Add k0) (by rw [bloomAdd_size]; exact hsize)
        (by rw [bloomAdd_bitArray_length, hlen, bloomAdd_size]) hrest

/-- Witness for C9 at a concrete filter: size 9, 3 hash functions, with
`add` called on three keys including the probe key. -/
theorem bloom_no_false_negatives_witness :
    (0 < (9 : Nat)) ∧
      (([[1, 2], [3], [7, 7, 7]].foldl BloomFilter.Add
          { bitArray := List.replicate 9 false, size := 9,
            hashFuncs := 3 }).Contains [3] = true) :=
  ⟨by decide,
    bloom_no_false_negatives _ _ _ (by decide) (by decide) (by decide)⟩


/-! ### MemTable lemmas (C8) -/

theorem find_listUpdateEntry_self (l : List Entry) (e : Entry) :
    (listUpdateEntry l e).find? (fun x => x.key == e.key) = some e := by
  induction l with
  | nil => simp [listUpdateEntry]
  | cons x xs ih =>
    by_cases h : x.key = e.key
    · simp [listUpdateEntry, h]
    · simp [listUpdateEntry, h, ih]

theorem find_listUpdateEntry_ne (l : List Entry) (e : Entry) (k : List Nat)
    (hne : e.key ≠ k) :
    (listUpdateEntry l e).find? (fun x => x.key == k) =
      l.find? (fun x => x.key == k) := by
  induction l with
  | nil => simp [listUpdateEntry, hne]
  | cons x xs ih =>
    by_cases h : x.key = e.key
    · have hek : (e.key == k) = false := by simpa using hne
      have hxk : (x.key == k) = false := by rw [h]; exact hek
      simp [listUpdateEntry, h, hek, hxk]
    · by_cases hxk : x.key = k
      · have hke : ¬ k = e.key := fun hh => hne hh.symm
        simp [listUpdateEntry, h, hxk, hke]
      · simp [listUpdateEntry, h, hxk, ih]

theorem memWrite_size_le (mt : MemTable) (e : Entry) (mt2 : MemTable)
    (hok : memWrite mt e = .ok mt2) (hle : mt.size ≤ mt.maxSize) :
    mt2.size ≤ mt2.maxSize ∧ mt2.maxSize = mt.maxSize := by
  unfold memWrite at hok
  split at hok
  · simp at hok
  · split at hok
    · simp at hok
    · next hcond =>
      cases hok
      refine ⟨?_, rfl⟩
      by_cases hc : memContainsKey mt e.key
      · simp [hc]
        exact hle
      · simp [hc] at hcond ⊢
        omega

theorem memApply_size (mt : MemTable) (oi : Op × Int)
    (hle : mt.size ≤ mt.maxSize) :
    (memApply mt oi).size ≤ (memApply mt oi).maxSize ∧
      (memApply mt oi).maxSize = mt.maxSize := by
  rcases oi with ⟨op, ts⟩
  cases op with
  | put k v =>
    unfold memApply MemTable.Put
    cases hw : memWrite mt (NewPutEntry k v ts) with
    | error e2 =>
      simp only [hw]
      exact ⟨hle, trivial⟩
    | ok mt2 =>
      simp only [hw]
      exact memWrite_size_le mt _ mt2 hw hle
  | del k =>
    unfold memApply MemTable.Delete
    cases hw : memWrite mt (NewDeleteEntry k ts) with
    | error e2 =>
      simp only [hw]
      exact ⟨hle, trivial⟩
    | ok mt2 =>
      simp only [hw]
      exact memWrite_size_le mt _ mt2 hw hle

theorem memApplyOps_size (mt : MemTable) (ops : List (Op × Int))
    (hle : mt.size ≤ mt.maxSize) :
    (memApplyOps mt ops).size ≤ mt.maxSize := by
  induction ops generalizing mt with
  | nil => exact hle
  | cons oi rest ih =>
    unfold memApplyOps
    rw [List.foldl_cons]
    have h := memApply_size mt oi hle
    have h2 := ih (memApply mt oi) (by omega)
    unfold memApplyOps at h2
    omega

theorem memWrite_ok_of_contains (mt : MemTable) (e : Entry)
    (hro : mt.readOnly = false) (hc : memContainsKey mt e.key = true) :
    memWrite mt e = .ok { mt with entries := listUpdateEntry mt.entries e,
                                  size := mt.size } := by
  unfold memWrite
  rw [if_neg (by simp [hro]), if_neg (by simp [hc])]
  simp [hc]

/-- **C8**.  MemTable capacity behaviour: (1) across any sequence of
put/delete operations, `size ≤ max_entries` is preserved; (2) a put or
delete of a key already present succeeds, overwrites it, and keeps `size`
unchanged; (3) a put or delete of a new key when `size = max_entries`
fails with `ErrTableFull` — and, the error carrying no table, the MemTable
is left unchanged. -/
theorem memtable_capacity_and_overwrite (mt : MemTable) (k v : List Nat)
    (ts : Int) :
    (mt.size ≤ mt.maxSize →
      ∀ ops : List (Op × Int), (memApplyOps mt ops).size ≤ mt.maxSize) ∧
    (mt.readOnly = false → memContainsKey mt k = true →
      (∃ mt2, mt.Put k v ts = .ok mt2 ∧ mt2.size = mt.size ∧
        mt2.Get k = some (NewPutEntry k v ts)) ∧
      (∃ mt2, mt.Delete k ts = .ok mt2 ∧ mt2.size = mt.size ∧
        mt2.Get k = some (NewDeleteEntry k ts))) ∧
    (mt.readOnly = false → memContainsKey mt k = false →
      mt.size = mt.maxSize →
      mt.Put k v ts = .error .tableFull ∧
        mt.Delete k ts = .error .tableFull) := by
  refine ⟨fun hle ops => memApplyOps_size mt ops hle, ?_, ?_⟩
  · intro hro hc
    constructor
    · refine ⟨_, memWrite_ok_of_contains mt (NewPutEntry k v ts) hro hc, rfl, ?_⟩
      show MemTable.Get _ k = _
      unfold MemTable.Get
      simpa using find_listUpdateEntry_self mt.entries (NewPutEntry k v ts)
    · refine ⟨_, memWrite_ok_of_contains mt (NewDeleteEntry k ts) hro hc, rfl, ?_⟩
      show MemTable.Get _ k = _
      unfold MemTable.Get
      simpa using find_listUpdateEntry_self mt.entries (NewDeleteEntry k ts)
  · intro hro hc hfull
    constructor
    · unfold MemTable.Put memWrite
      rw [if_neg (by simp [hro]), if_pos]
      show ¬ _ = true ∧ _
      simp [NewPutEntry, hc]
      omega
    · unfold MemTable.Delete memWrite
      rw [if_neg (by simp [hro]), if_pos]
      show ¬ _ = true ∧ _
      simp [NewDeleteEntry, hc]
      omega

/-- Witness for C8 at a concrete table: one entry stored, capacity 1. -/
theorem memtable_capacity_and_overwrite_witness :
    ((NewMemTable 1).readOnly = false) ∧
    (∃ mt2, (NewMemTable 1).Put [1] [9] 0 = .ok mt2 ∧
      (memContainsKey mt2 [1] = true) ∧
      (∃ mt3, mt2.Put [1] [8] 5 = .ok mt3 ∧ mt3.size = mt2.size ∧
        mt3.Get [1] = some (NewPutEntry [1] [8] 5)) ∧
      mt2.Put [2] [7] 6 = .error .tableFull) := by
  refine ⟨rfl, { entries := [NewPutEntry [1] [9] 0], maxSize := 1, size := 1,
                 readOnly := false }, rfl, by decide, ?_, ?_⟩
  · exact (((memtable_capacity_and_overwrite
      { entries := [NewPutEntry [1] [9] 0], maxSize := 1, size := 1,
        readOnly := false } [1] [8] 5).2.1 rfl (by decide)).1)
  · exact (((memtable_capacity_and_overwrite
      { entries := [NewPutEntry [1] [9] 0], maxSize := 1, size := 1,
        readOnly := false } [2] [7] 6).2.2 rfl (by decide) rfl).1)

/-! ### WAL round-trip lemmas (C3, C4) -/

theorem u32le_length (n : Nat) : (u32le n).length = 4 := rfl

theorem u64le_length (n : Nat) : (u64le n).length = 8 := rfl

theorem decodeLE_u32le (n : Nat) (h : n < 2 ^ 32) : decodeLE (u32le n) = n := by
  simp [decodeLE, u32le]
  omega

theorem decodeLE_u64le (m : Nat) (h : m < 2 ^ 64) : decodeLE (u64le m) = m := by
  simp [decodeLE, u64le]
  omega

theorem decodeI64_roundtrip (ts : Int) (h1 : -(2 ^ 63) ≤ ts)
    (h2 : ts < 2 ^ 63) : decodeI64 (decodeLE (i64le ts)) = ts := by
  unfold i64le
  rw [decodeLE_u64le _ (by omega)]
  unfold decodeI64
  split <;> omega

/-- Reading exactly the bytes of `l` from `l ++ rest`. -/
theorem readBytesFull_exact (l rest : List Nat) :
    readBytesFull l.length (l ++ rest) = .ok (l, rest) := by
  unfold readBytesFull
  rcases l with _ | ⟨x, xs⟩
  · simp
  · rw [if_neg (by simp), if_neg (by simp), if_neg (by simp)]
    simp

theorem readBytesFull_u32 (n : Nat) (rest : List Nat) :
    readBytesFull 4 (u32le n ++ rest) = .ok (u32le n, rest) :=
  readBytesFull_exact (u32le n) rest

theorem readBytesFull_u64 (m : Nat) (rest : List Nat) :
    readBytesFull 8 (u64le m ++ rest) = .ok (u64le m, rest) :=
  readBytesFull_exact (u64le m) rest

theorem readBytesFull_i64 (ts : Int) (rest : List Nat) :
    readBytesFull 8 (i64le ts ++ rest) = .ok (i64le ts, rest) :=
  readBytesFull_exact (i64le ts) rest

theorem readBytesFull_one (b : Nat) (rest : List Nat) :
    readBytesFull 1 (b :: rest) = .ok ([b], rest) :=
  readBytesFull_exact [b] rest

/-- Decoding one encoded record from the front of a byte stream returns
the original entry and the remaining bytes. -/
theorem readEntryBytes_encode (e : Entry) (rest : List Nat)
    (h : wfEntry e) : readEntryBytes (encodeEntry e ++ rest) = .ok (e, rest) := by
  obtain ⟨h1, h2, h3, h4, h5⟩ := h
  unfold readEntryBytes encodeEntry
  simp only [List.append_assoc, List.cons_append, List.nil_append,
    readBytesFull_u32, decodeLE_u32le _ h1, decodeLE_u32le _ h2,
    readBytesFull_exact, readBytesFull_one, readBytesFull_i64]
  simp [entryTypeByte, Nat.mod_eq_of_lt h3, decodeI64_roundtrip _ h4 h5]

theorem readBytesFull_all (l : List Nat) : readBytesFull l.length l = .ok (l, []) := by
  simpa using readBytesFull_exact l []

theorem readBytesFull_u32_all (m : Nat) :
    readBytesFull 4 (u32le m) = .ok (u32le m, []) :=
  readBytesFull_all (u32le m)

theorem encodeEntry_length_pos (e : Entry) : 0 < (encodeEntry e).length := by
  simp [encodeEntry, u32le, i64le, u64le]

theorem length_encodeEntries_ge (es : List Entry) :
    es.length ≤ (encodeEntries es).length := by
  induction es with
  | nil => simp [encodeEntries]
  | cons e rest ih =>
    have := encodeEntry_length_pos e
    simp only [encodeEntries, List.length_append, List.length_cons]
    omega

/-- Consuming the encodings of `es` from the front of the stream pushes the
entries (reversed) onto the accumulator, using one unit of fuel each. -/
theorem recoverAux_encode (es : List Entry) (s : List Nat) (acc : List Entry)
    (fuel : Nat) (hwf : ∀ e ∈ es, wfEntry e) (hfuel : es.length ≤ fuel) :
    recoverAux fuel (encodeEntries es ++ s) acc =
      recoverAux (fuel - es.length) s (es.reverse ++ acc) := by
  induction es generalizing acc fuel with
  | nil => simp [encodeEntries]
  | cons e rest ih =>
    rcases fuel with _ | f
    · simp at hfuel
    · simp only [encodeEntries, List.append_assoc]
      simp only [recoverAux, readEntryBytes_encode e _ (hwf e (by simp))]
      rw [ih (e :: acc) f (fun x hx => hwf x (by simp [hx]))
        (by simp at hfuel; omega)]
      simp [Nat.succ_sub_succ]

theorem recoverAux_nil (fuel : Nat) (acc : List Entry) :
    recoverAux (fuel + 1) [] acc = .ok acc.reverse := by
  simp [recoverAux, readEntryBytes, readBytesFull]

theorem readEntryBytes_u32_only (m : Nat) (h0 : 0 < m) (h32 : m < 2 ^ 32) :
    readEntryBytes (u32le m) = .error .eofClean := by
  simp only [readEntryBytes, readBytesFull_u32_all, decodeLE_u32le _ h32]
  have hne : ¬ m = 0 := by omega
  simp [readBytesFull, hne]

theorem recoverAux_u32_tail (fuel : Nat) (acc : List Entry) (m : Nat)
    (h0 : 0 < m) (h32 : m < 2 ^ 32) :
    recoverAux (fuel + 1) (u32le m) acc = .ok acc.reverse := by
  simp [recoverAux, readEntryBytes_u32_only m h0 h32]

/-- `Recover` on exactly the bytes written for `e₁ … eₙ` yields `e₁ … eₙ`. -/
theorem walRecover_encodeEntries (es : List Entry)
    (hwf : ∀ e ∈ es, wfEntry e) : walRecover (encodeEntries es) = .ok es := by
  unfold walRecover
  have h1 : es.length ≤ (encodeEntries es).length := length_encodeEntries_ge es
  rw [← List.append_nil (encodeEntries es)]
  rw [recoverAux_encode es [] [] _ hwf (by simpa using by omega)]
  obtain ⟨f, hf⟩ : ∃ f, (encodeEntries es ++ []).length + 1 - es.length = f + 1 :=
    ⟨(encodeEntries es ++ []).length - es.length, by simp; omega⟩
  rw [hf, recoverAux_nil]
  simp

/-- **C3**.  WAL round-trip: writing entries `e₁ … eₙ` via `WriteEntry` and
then running `Recover` on the resulting bytes yields exactly `e₁ … eₙ` in
order — identical key bytes, value bytes, kind and nanosecond timestamp. -/
theorem wal_write_then_recover_roundtrip (es : List Entry)
    (hwf : ∀ e ∈ es, wfEntry e) : walRecover (encodeEntries es) = .ok es :=
  walRecover_encodeEntries es hwf

/-- Witness for C3: two concrete records (a PUT and a DELETE tombstone)
survive the round trip. -/
theorem wal_write_then_recover_roundtrip_witness :
    (∀ e ∈ [NewPutEntry [1] [2] 5, NewDeleteEntry [3] 7], wfEntry e) ∧
      walRecover (encodeEntries [NewPutEntry [1] [2] 5, NewDeleteEntry [3] 7]) =
        .ok [NewPutEntry [1] [2] 5, NewDeleteEntry [3] 7] :=
  ⟨by decide, wal_write_then_recover_roundtrip _ (by decide)⟩

/-- **C4** (counterexample).  One complete record followed by a truncated
tail holding only 2 of the 4 `key_len` bytes: Go's `binary.Read` returns
`io.ErrUnexpectedEOF` for the partial field, which `Recover` treats as a
fatal error instead of stopping at the last complete entry. -/
theorem wal_recover_fatal_on_partial_field :
    walRecover (encodeEntry (NewPutEntry [107] [118] 0) ++ [1, 0]) =
      .error () := rfl

/-- **C4** (amended).  `recover()` returns the `n` complete entries and
terminates without a fatal error when the truncated tail supplies zero
bytes of the next field — the tail is empty, or ends exactly after the
`key_len` field of a record whose key bytes are entirely missing; a tail
that ends partway through a field instead makes `recover()` return a
fatal error (see the counterexample). -/
theorem wal_recover_truncated_tail_amended (es : List Entry) (m : Nat)
    (hwf : ∀ e ∈ es, wfEntry e) (h0 : 0 < m) (h32 : m < 2 ^ 32) :
    walRecover (encodeEntries es) = .ok es ∧
      walRecover (encodeEntries es ++ u32le m) = .ok es := by
  refine ⟨walRecover_encodeEntries es hwf, ?_⟩
  unfold walRecover
  have h1 : es.length ≤ (encodeEntries es).length := length_encodeEntries_ge es
  rw [recoverAux_encode es (u32le m) [] _ hwf (by simp; omega)]
  obtain ⟨f, hf⟩ :
      ∃ f, (encodeEntries es ++ u32le m).length + 1 - es.length = f + 1 :=
    ⟨(encodeEntries es ++ u32le m).length - es.length, by simp; omega⟩
  rw [hf, recoverAux_u32_tail f _ m h0 h32]
  simp

/-- Witness for the amended C4: one complete record, then a lone `key_len`
field announcing 2 missing key bytes. -/
theorem wal_recover_truncated_tail_amended_witness :
    (∀ e ∈ [NewPutEntry [9] [8] 3], wfEntry e) ∧ 0 < 2 ∧ 2 < 2 ^ 32 ∧
      walRecover (encodeEntries [NewPutEntry [9] [8] 3] ++ u32le 2) =
        .ok [NewPutEntry [9] [8] 3] :=
  ⟨by decide, by decide, by decide,
    (wal_recover_truncated_tail_amended [NewPutEntry [9] [8] 3] 2
      (by decide) (by decide) (by decide)).2⟩

/-! ### Compaction lemmas (C6, C10) -/

/-- Membership in `removeDuplicatesAndTombstones` (with explicit seen-set):
exactly the non-tombstone entries that are the first occurrence of their
key and whose key is not already seen. -/
theorem mem_removeDupsAux (l : List Entry) (seen : List (List Nat)) (e : Entry) :
    e ∈ removeDupsAux l seen ↔
      (l.find? (fun x => x.key == e.key) = some e ∧
        e.IsDeleted = false ∧ e.key ∉ seen) := by
  induction l generalizing seen with
  | nil => simp [removeDupsAux]
  | cons h t ih =>
    by_cases hseen : h.key ∈ seen
    · simp only [removeDupsAux, if_pos hseen]
      rw [ih seen]
      by_cases hkey : h.key = e.key
      · constructor
        · rintro ⟨hf, hd, hs⟩
          exact absurd (hkey ▸ hseen) hs
        · rintro ⟨hf, hd, hs⟩
          exact absurd (hkey ▸ hseen) hs
      · have hpred : (h.key == e.key) = false := by simpa using hkey
        rw [List.find?_cons_of_neg _ (by simp [hpred])]
    · by_cases hdel : h.IsDeleted
      · simp only [removeDupsAux, if_neg hseen, if_pos hdel]
        rw [ih (h.key :: seen)]
        by_cases hkey : h.key = e.key
        · have hpred : (h.key == e.key) = true := by simpa using hkey
          rw [List.find?_cons_of_pos _ (by simp [hpred])]
          constructor
          · rintro ⟨hf, hd, hs⟩
            exact absurd (by simp [← hkey]) hs
          · rintro ⟨hf, hd, hs⟩
            injection hf with hf2
            exact absurd (hf2 ▸ hdel) (by simp [hd])
        · have hpred : (h.key == e.key) = false := by simpa using hkey
          rw [List.find?_cons_of_neg _ (by simp [hpred])]
          constructor
          · rintro ⟨hf, hd, hs⟩
            exact ⟨hf, hd, fun hm => hs (by simp [hm])⟩
          · rintro ⟨hf, hd, hs⟩
            refine ⟨hf, hd, ?_⟩
            intro hm
            rcases List.mem_cons.1 hm with h1 | h2
            · exact hkey h1.symm
            · exact hs h2
      · simp only [removeDupsAux, if_neg hseen, if_neg hdel]
        rw [List.mem_cons, ih (h.key :: seen)]
        by_cases hkey : h.key = e.key
        · have hpred : (h.key == e.key) = true := by simpa using hkey
          rw [List.find?_cons_of_pos _ (by simp [hpred])]
          constructor
          · rintro (heq | ⟨hf, hd, hs⟩)
            · subst heq
              exact ⟨rfl, by simpa using hdel, hseen⟩
            · exact absurd (by simp [← hkey]) hs
          · rintro ⟨hf, hd, hs⟩
            left
            injection hf with hf2
            exact hf2.symm
        · have hpred : (h.key == e.key) = false := by simpa using hkey
          rw [List.find?_cons_of_neg _ (by simp [hpred])]
          constructor
          · rintro (heq | ⟨hf, hd, hs⟩)
            · subst heq
              exact absurd rfl hkey
            · exact ⟨hf, hd, fun hm => hs (by simp [hm])⟩
          · rintro ⟨hf, hd, hs⟩
            right
            refine ⟨hf, hd, ?_⟩
            intro hm
            rcases List.mem_cons.1 hm with h1 | h2
            · exact hkey h1.symm
            · exact hs h2

/-- The surviving entries carry pairwise-distinct keys, none already seen. -/
theorem removeDupsAux_keys_nodup (l : List Entry) (seen : List (List Nat)) :
    ((removeDupsAux l seen).map (fun e => e.key)).Nodup ∧
      ∀ k ∈ (removeDupsAux l seen).map (fun e => e.key), k ∉ seen := by
  induction l generalizing seen with
  | nil => simp [removeDupsAux]
  | cons h t ih =>
    by_cases hseen : h.key ∈ seen
    · simpa [removeDupsAux, hseen] using ih seen
    · by_cases hdel : h.IsDeleted
      · have hr := ih (h.key :: seen)
        simp only [removeDupsAux, if_neg hseen, if_pos hdel]
        exact ⟨hr.1, fun k hk hkseen => hr.2 k hk (by simp [hkseen])⟩
      · have hr := ih (h.key :: seen)
        simp only [removeDupsAux, if_neg hseen, if_neg hdel, List.map_cons,
          List.nodup_cons]
        refine ⟨⟨fun hmem => hr.2 _ hmem (by simp), hr.1⟩, ?_⟩
        intro k hk
        rcases List.mem_cons.1 hk with h1 | h2
        · subst h1
          exact hseen
        · intro hkseen
          exact hr.2 k h2 (by simp [hkseen])

/-- In a list sorted by the compaction comparator, the first entry found
for a key carries the newest timestamp among that key's entries. -/
theorem sorted_find_ts (l : List Entry) (hs : List.Pairwise compactionLe l)
    (κ : List Nat) (f e2 : Entry)
    (hfind : l.find? (fun x => x.key == κ) = some f)
    (h2 : e2 ∈ l) (hk : e2.key = κ) : e2.timestamp ≤ f.timestamp := by
  induction l with
  | nil => cases h2
  | cons h t ih =>
    by_cases hh : h.key = κ
    · have hfh : h = f := by
        rw [List.find?_cons_of_pos _ (by simpa using hh)] at hfind
        injection hfind
      rcases List.mem_cons.1 h2 with rfl | h2t
      · exact hfh ▸ le_refl _
      · have hle := (List.pairwise_cons.1 hs).1 e2 h2t
        rw [← hfh]
        unfold compactionLe at hle
        rcases hle with hlt | ⟨_, hts⟩
        · exfalso
          have hke : h.key = e2.key := hh.trans hk.symm
          rw [hke, bytesCompare_refl] at hlt
          omega
        · exact hts
    · rw [List.find?_cons_of_neg _ (by simpa using hh)] at hfind
      rcases List.mem_cons.1 h2 with rfl | h2t
      · exact absurd hk hh
      · exact ih (List.pairwise_cons.1 hs).2 hfind h2t

/-- If `e` is the newest version of its key in a sorted list, the scan for
its key finds exactly `e`. -/
theorem find_of_isNewest (l : List Entry) (hs : List.Pairwise compactionLe l)
    (e : Entry) (hnew : isNewestFor l e) :
    l.find? (fun x => x.key == e.key) = some e := by
  obtain ⟨hmem, hmax⟩ := hnew
  rcases hfind : l.find? (fun x => x.key == e.key) with _ | f
  · exfalso
    rw [List.find?_eq_none] at hfind
    exact absurd (by simp) (hfind e hmem)
  · have hfmem : f ∈ l := List.mem_of_find?_eq_some hfind
    have hfkey : f.key = e.key := by
      have := List.find?_some hfind
      simpa using this
    have hts : e.timestamp ≤ f.timestamp :=
      sorted_find_ts l hs e.key f e hfind hmem rfl
    rcases hmax f hfmem hfkey with heq | hlt
    · exact heq ▸ hfind
    · omega

theorem mem_rdt_isNewest (l : List Entry) (hs : List.Pairwise compactionLe l)
    (hpk : pairwiseDistinctTimestamps l) (e : Entry)
    (he : e ∈ removeDuplicatesAndTombstones l) :
    isNewestFor l e ∧ e.IsDeleted = false := by
  rw [removeDuplicatesAndTombstones, mem_removeDupsAux] at he
  obtain ⟨hfind, hdel, _⟩ := he
  have hmem : e ∈ l := List.mem_of_find?_eq_some hfind
  refine ⟨⟨hmem, ?_⟩, hdel⟩
  intro e2 h2 hk
  have hts : e2.timestamp ≤ e.timestamp :=
    sorted_find_ts l hs e.key e e2 hfind h2 hk
  rcases eq_or_lt_of_le hts with heq | hlt
  · exact Or.inl (hpk e2 h2 e hmem hk heq)
  · exact Or.inr hlt

theorem isNewest_mem_rdt (l : List Entry) (hs : List.Pairwise compactionLe l)
    (e : Entry) (hnew : isNewestFor l e) (hdel : e.IsDeleted = false) :
    e ∈ removeDuplicatesAndTombstones l := by
  rw [removeDuplicatesAndTombstones, mem_removeDupsAux]
  exact ⟨find_of_isNewest l hs e hnew, hdel, by simp⟩

theorem isNewestFor_perm (l l2 : List Entry) (hp : l.Perm l2) (e : Entry) :
    isNewestFor l e ↔ isNewestFor l2 e := by
  unfold isNewestFor
  constructor <;> rintro ⟨hm, hmax⟩
  · exact ⟨hp.mem_iff.1 hm, fun e2 h2 => hmax e2 (hp.mem_iff.2 h2)⟩
  · exact ⟨hp.mem_iff.2 hm, fun e2 h2 => hmax e2 (hp.mem_iff.1 h2)⟩

theorem pkdt_perm (l l2 : List Entry) (hp : l.Perm l2)
    (h : pairwiseDistinctTimestamps l) : pairwiseDistinctTimestamps l2 :=
  fun e1 h1 e2 h2 => h e1 (hp.mem_iff.2 h1) e2 (hp.mem_iff.2 h2)

/-- The entries of `ExecuteCompaction`'s output tables are a permutation of
the deduplicated, tombstone-free merge of the inputs. -/
theorem executeCompaction_perm (inputs : List (List Entry))
    (out : List SSTableM) (hok : ExecuteCompaction inputs = .ok out) :
    (joinEntries (out.map SSTableM.entries)).Perm
      (removeDuplicatesAndTombstones
        (List.insertionSort compactionLe (joinEntries inputs))) := by
  simp only [ExecuteCompaction] at hok
  split at hok
  · simp at hok
  · split at hok
    · next hemp =>
      cases hok
      rw [List.isEmpty_iff] at hemp
      rw [hemp]
      simp [joinEntries]
    · cases hok
      simp only [List.map_cons, List.map_nil, joinEntries, buildSSTable,
        List.append_nil]
      exact List.perm_insertionSort builderLe _

/-- **C6**.  An executed compaction outputs at most one entry per key —
the one carrying the newest timestamp — drops every key whose newest
version is a DELETE, and keeps the newest PUT of every other key. -/
theorem compaction_dedup_newest_wins (inputs : List (List Entry))
    (out : List SSTableM) (hok : ExecuteCompaction inputs = .ok out)
    (hpk : pairwiseDistinctTimestamps (joinEntries inputs)) :
    ((joinEntries (out.map SSTableM.entries)).map (fun e => e.key)).Nodup ∧
    (∀ e ∈ joinEntries (out.map SSTableM.entries),
      isNewestFor (joinEntries inputs) e ∧ e.IsDeleted = false) ∧
    (∀ e ∈ joinEntries inputs, isNewestFor (joinEntries inputs) e →
      e.IsDeleted = false → e ∈ joinEntries (out.map SSTableM.entries)) := by
  have hperm := executeCompaction_perm inputs out hok
  have hsortperm : (List.insertionSort compactionLe (joinEntries inputs)).Perm
      (joinEntries inputs) := List.perm_insertionSort compactionLe _
  have hsorted : List.Pairwise compactionLe
      (List.insertionSort compactionLe (joinEntries inputs)) :=
    List.sorted_insertionSort compactionLe _
  have hpk2 : pairwiseDistinctTimestamps
      (List.insertionSort compactionLe (joinEntries inputs)) :=
    pkdt_perm _ _ hsortperm.symm hpk
  refine ⟨?_, ?_, ?_⟩
  · have h1 := (removeDupsAux_keys_nodup
      (List.insertionSort compactionLe (joinEntries inputs)) []).1
    exact ((hperm.map (fun e => e.key)).nodup_iff).2 h1
  · intro e he
    have he2 := hperm.mem_iff.1 he
    have h2 := mem_rdt_isNewest _ hsorted hpk2 e he2
    exact ⟨(isNewestFor_perm _ _ hsortperm e).1 h2.1, h2.2⟩
  · intro e hmem hnew hdel
    have hnew2 := (isNewestFor_perm _ _ hsortperm.symm e).1 hnew
    have h3 := isNewest_mem_rdt _ hsorted e hnew2 hdel
    exact hperm.mem_iff.2 h3

/-- Witness for C6: two input tables with a duplicate key (newest wins)
and a tombstoned key (dropped). -/
theorem compaction_dedup_newest_wins_witness :
    pairwiseDistinctTimestamps (joinEntries [[NewPutEntry [1] [5] 0],
      [NewDeleteEntry [2] 1, NewPutEntry [1] [6] 2]]) ∧
    (∀ e ∈ joinEntries
        ([({ entries := [NewPutEntry [1] [6] 2] } : SSTableM)].map
          SSTableM.entries),
      isNewestFor (joinEntries [[NewPutEntry [1] [5] 0],
        [NewDeleteEntry [2] 1, NewPutEntry [1] [6] 2]]) e ∧
        e.IsDeleted = false) :=
  ⟨by decide,
    (compaction_dedup_newest_wins
      [[NewPutEntry [1] [5] 0], [NewDeleteEntry [2] 1, NewPutEntry [1] [6] 2]]
      [{ entries := [NewPutEntry [1] [6] 2] }] rfl (by decide)).2.1⟩

/-- **C10**.  If after merging and deduplication the newest version of every
key is a DELETE, `ExecuteCompaction` succeeds with an empty output-table
list — no output SSTable is built. -/
theorem compaction_all_tombstones_no_output (inputs : List (List Entry))
    (hne : inputs ≠ [])
    (hpk : pairwiseDistinctTimestamps (joinEntries inputs))
    (hdel : ∀ e ∈ joinEntries inputs,
      isNewestFor (joinEntries inputs) e → e.IsDeleted = true) :
    ExecuteCompaction inputs = .ok [] := by
  have hsortperm : (List.insertionSort compactionLe (joinEntries inputs)).Perm
      (joinEntries inputs) := List.perm_insertionSort compactionLe _
  have hsorted : List.Pairwise compactionLe
      (List.insertionSort compactionLe (joinEntries inputs)) :=
    List.sorted_insertionSort compactionLe _
  have hpk2 : pairwiseDistinctTimestamps
      (List.insertionSort compactionLe (joinEntries inputs)) :=
    pkdt_perm _ _ hsortperm.symm hpk
  have hempty : removeDuplicatesAndTombstones
      (List.insertionSort compactionLe (joinEntries inputs)) = [] := by
    rw [List.eq_nil_iff_forall_not_mem]
    intro e he
    have h2 := mem_rdt_isNewest _ hsorted hpk2 e he
    have h3 := hdel e (hsortperm.mem_iff.1 h2.1.1)
      ((isNewestFor_perm _ _ hsortperm e).1 h2.1)
    rw [h3] at h2
    exact absurd h2.2 (by simp)
  simp [ExecuteCompaction, hempty, hne]

/-- Witness for C10: a single input table holding one tombstone. -/
theorem compaction_all_tombstones_no_output_witness :
    ([[NewDeleteEntry [1] 0]] ≠ ([] : List (List Entry))) ∧
      ExecuteCompaction [[NewDeleteEntry [1] 0]] = .ok [] :=
  ⟨by decide,
    compaction_all_tombstones_no_output [[NewDeleteEntry [1] 0]]
      (by decide) (by decide) (by decide)⟩

/-! ### Engine read-path lemmas (C1, C2) -/

theorem orElse_none_left (x : Option Entry) : (none <|> x) = x := rfl

theorem orElse_none_right (x : Option Entry) : (x <|> none) = x := by
  cases x <;> rfl

theorem orElse_some_left (e : Entry) (x : Option Entry) :
    (some e <|> x) = some e := rfl

theorem orElse_assoc (x y z : Option Entry) :
    ((x <|> y) <|> z) = (x <|> (y <|> z)) := by
  cases x <;> rfl

theorem findRev_append (f : α → Option Entry) (l1 l2 : List α) :
    findRev f (l1 ++ l2) = (findRev f l2 <|> findRev f l1) := by
  induction l1 with
  | nil => simp [findRev, orElse_none_right]
  | cons x xs ih =>
    show (findRev f (xs ++ l2) <|> f x) = _
    rw [ih, orElse_assoc]
    rfl

/-- On a key-sorted entry list, the early-exit scan agrees with plain
first-match search. -/
theorem sstGet_eq_find (l : List Entry) (hs : List.Pairwise builderLe l)
    (k : List Nat) : sstGet l k = l.find? (fun e => e.key == k) := by
  induction l with
  | nil => rfl
  | cons h t ih =>
    rcases lt_trichotomy (bytesCompare h.key k) 0 with hlt | heq | hgt
    · have hne : (h.key == k) = false := by
        simp only [beq_eq_false_iff_ne, ne_eq]
        intro hc
        rw [hc, bytesCompare_refl] at hlt
        omega
      have hstep : sstGet (h :: t) k = sstGet t k := by
        show (if bytesCompare h.key k = 0 then some h
              else if 0 < bytesCompare h.key k then none
              else sstGet t k) = sstGet t k
        rw [if_neg (by omega), if_neg (by omega)]
      rw [hstep, List.find?_cons_of_neg _ (by simp [hne]),
        ih (List.pairwise_cons.1 hs).2]
    · have hk : h.key = k := (bytesCompare_eq_zero_iff _ _).1 heq
      unfold sstGet
      rw [if_pos heq, List.find?_cons_of_pos _ (by simp [hk])]
    · have hne : (h.key == k) = false := by
        simp only [beq_eq_false_iff_ne, ne_eq]
        intro hc
        rw [hc, bytesCompare_refl] at hgt
        omega
      rw [List.find?_cons_of_neg _ (by simp [hne])]
      unfold sstGet
      rw [if_neg (by omega), if_pos hgt]
      symm
      rw [List.find?_eq_none]
      intro e2 h2
      have hle := (List.pairwise_cons.1 hs).1 e2 h2
      unfold builderLe at hle
      have hpos := bytesCompare_pos_of_le_of_pos hle hgt
      simp only [beq_iff_eq]
      intro hc
      rw [hc, bytesCompare_refl] at hpos
      omega

/-- First-match search is permutation-invariant when keys are unique. -/
theorem find?_eq_of_perm_nodup (l l2 : List Entry) (hp : l.Perm l2)
    (k : List Nat) (hnodup : (l.map (fun e => e.key)).Nodup) :
    l.find? (fun e => e.key == k) = l2.find? (fun e => e.key == k) := by
  rcases h2 : l2.find? (fun e => e.key == k) with _ | f
  · rcases h1 : l.find? (fun e => e.key == k) with _ | f1
    · rw [h1, h2]
    · exfalso
      have hm : f1 ∈ l := List.mem_of_find?_eq_some h1
      have hpred := List.find?_some h1
      rw [List.find?_eq_none] at h2
      exact absurd hpred (by simpa using h2 f1 (hp.mem_iff.1 hm))
  · have hfm : f ∈ l := hp.mem_iff.2 (List.mem_of_find?_eq_some h2)
    have hfk : f.key = k := by simpa using List.find?_some h2
    rcases h1 : l.find? (fun e => e.key == k) with _ | f1
    · exfalso
      rw [List.find?_eq_none] at h1
      exact absurd (by simp [hfk]) (h1 f hfm)
    · have hm1 : f1 ∈ l := List.mem_of_find?_eq_some h1
      have hk1 : f1.key = k := by simpa using List.find?_some h1
      have : f1 = f :=
        List.inj_on_of_nodup_map hnodup hm1 hfm (by rw [hk1, hfk])
      rw [h1, h2, this]

/-- Flushing a MemTable with distinct keys to a (sorted) SSTable preserves
point lookups. -/
theorem sstGet_build_eq_get (mt : MemTable) (h : MemKeysNodup mt)
    (k : List Nat) :
    sstGet (buildSSTable mt.GetAllEntries).entries k = mt.Get k := by
  unfold buildSSTable MemTable.GetAllEntries
  rw [sstGet_eq_find _ (List.sorted_insertionSort builderLe _) k]
  exact find?_eq_of_perm_nodup _ _ (List.perm_insertionSort builderLe _) k
    (by
      have hperm := (List.perm_insertionSort builderLe mt.entries).map
        (fun e => e.key)
      exact (hperm.nodup_iff).2 h)

theorem memWrite_ok_parts (mt : MemTable) (e : Entry) (mt2 : MemTable)
    (hok : memWrite mt e = .ok mt2) :
    mt2.entries = listUpdateEntry mt.entries e ∧
      mt2.readOnly = mt.readOnly ∧ mt2.maxSize = mt.maxSize := by
  unfold memWrite at hok
  split at hok
  · simp at hok
  · split at hok
    · simp at hok
    · cases hok
      exact ⟨rfl, rfl, rfl⟩

theorem memWrite_ok_get_self (mt : MemTable) (e : Entry) (mt2 : MemTable)
    (hok : memWrite mt e = .ok mt2) : mt2.Get e.key = some e := by
  obtain ⟨he, _, _⟩ := memWrite_ok_parts mt e mt2 hok
  unfold MemTable.Get
  rw [he]
  exact find_listUpdateEntry_self mt.entries e

theorem memWrite_ok_get_ne (mt : MemTable) (e : Entry) (mt2 : MemTable)
    (k : List Nat) (hok : memWrite mt e = .ok mt2) (hne : e.key ≠ k) :
    mt2.Get k = mt.Get k := by
  obtain ⟨he, _, _⟩ := memWrite_ok_parts mt e mt2 hok
  unfold MemTable.Get
  rw [he]
  exact find_listUpdateEntry_ne mt.entries e k hne

theorem memWrite_not_readOnly_err (mt : MemTable) (e : Entry)
    (hro : mt.readOnly = false) :
    memWrite mt e ≠ .error .readOnly := by
  unfold memWrite
  rw [if_neg (by simp [hro])]
  split <;> simp

theorem keys_listUpdateEntry_contains (l : List Entry) (e : Entry)
    (hc : l.any (fun x => x.key == e.key) = true) :
    (listUpdateEntry l e).map (fun x => x.key) = l.map (fun x => x.key) := by
  induction l with
  | nil => simp at hc
  | cons x xs ih =>
    by_cases h : x.key = e.key
    · simp [listUpdateEntry, h]
    · have hc2 : xs.any (fun x => x.key == e.key) = true := by
        simp only [List.any_cons] at hc
        simpa [h] using hc
      simp [listUpdateEntry, h, ih hc2]

theorem keys_listUpdateEntry_new (l : List Entry) (e : Entry)
    (hc : l.any (fun x => x.key == e.key) = false) :
    (listUpdateEntry l e).map (fun x => x.key) =
      l.map (fun x => x.key) ++ [e.key] := by
  induction l with
  | nil => simp [listUpdateEntry]
  | cons x xs ih =>
    simp only [List.any_cons, Bool.or_eq_false_iff] at hc
    have h : ¬ x.key = e.key := by simpa using hc.1
    simp [listUpdateEntry, h, ih hc.2]

theorem memWrite_nodup (mt : MemTable) (e : Entry) (mt2 : MemTable)
    (hok : memWrite mt e = .ok mt2) (h : MemKeysNodup mt) :
    MemKeysNodup mt2 := by
  obtain ⟨he, _, _⟩ := memWrite_ok_parts mt e mt2 hok
  unfold MemKeysNodup at h ⊢
  rw [he]
  cases hc : mt.entries.any (fun x => x.key == e.key) with
  | true => rw [keys_listUpdateEntry_contains _ _ hc]; exact h
  | false =>
    rw [keys_listUpdateEntry_new _ _ hc]
    have hnotin : e.key ∉ mt.entries.map (fun x => x.key) := by
      intro hmem
      rcases List.mem_map.1 hmem with ⟨x, hx, hkx⟩
      rw [List.any_eq_false] at hc
      exact absurd (by simp [hkx]) (hc x hx)
    simp [List.nodup_append, h, hnotin]

theorem flush_activeTable (s : LSM) :
    (flushImmutableTableInternal s).activeTable = s.activeTable := by
  unfold flushImmutableTableInternal
  split
  · rfl
  · split <;> rfl

theorem flush_maxTableSize (s : LSM) :
    (flushImmutableTableInternal s).maxTableSize = s.maxTableSize := by
  unfold flushImmutableTableInternal
  split
  · rfl
  · split <;> rfl

theorem rotate_activeTable (s : LSM) :
    (rotateMemTable s).activeTable = NewMemTable s.maxTableSize := by
  unfold rotateMemTable createNewActiveTable
  rw [flush_activeTable]

theorem rotate_maxTableSize (s : LSM) :
    (rotateMemTable s).maxTableSize = s.maxTableSize := by
  unfold rotateMemTable createNewActiveTable
  rw [flush_maxTableSize]

theorem memWrite_fresh (n : Nat) (e : Entry) (h : 0 < n) :
    memWrite (NewMemTable n) e =
      .ok { entries := [e], maxSize := n, size := 1, readOnly := false } := by
  unfold memWrite NewMemTable
  rw [if_neg (by simp)]
  rw [if_neg (by simp [memContainsKey]; omega)]
  simp [memContainsKey, listUpdateEntry]

theorem svcWriteRetry_maxTableSize (s : LSM) (e : Entry) :
    (svcWriteRetry s e).maxTableSize = s.maxTableSize := by
  unfold svcWriteRetry
  split <;> rfl

theorem svcWriteCore_maxTableSize (s : LSM) (e : Entry) :
    (svcWriteCore s e).maxTableSize = s.maxTableSize := by
  unfold svcWriteCore
  split
  · rfl
  · rw [svcWriteRetry_maxTableSize, rotate_maxTableSize]
  · rfl

theorem svcWrite_maxTableSize (s : LSM) (e : Entry) :
    (svcWrite s e).maxTableSize = s.maxTableSize := by
  unfold svcWrite
  rw [svcWriteCore_maxTableSize]

theorem lookupLevels_succ (b : Nat → List SSTableM) (k : List Nat)
    (lvl n : Nat) :
    lookupLevels b k lvl (n + 1) =
      (findRev (fun t => sstGet t.entries k) (b lvl) <|>
        lookupLevels b k (lvl + 1) n) := rfl

theorem lookupLevels_congr (b1 b2 : Nat → List SSTableM) (k : List Nat)
    (lvl cnt : Nat) (h : ∀ j, lvl ≤ j → b1 j = b2 j) :
    lookupLevels b1 k lvl cnt = lookupLevels b2 k lvl cnt := by
  induction cnt generalizing lvl with
  | zero => rfl
  | succ n ih =>
    rw [lookupLevels_succ, lookupLevels_succ, h lvl (le_refl _),
      ih (lvl + 1) (fun j hj => h j (by omega))]

theorem mem_get_empty (t : MemTable) (h : t.GetAllEntries.isEmpty = true)
    (k : List Nat) : t.Get k = none := by
  unfold MemTable.GetAllEntries at h
  rw [List.isEmpty_iff] at h
  unfold MemTable.Get
  rw [h]
  rfl

/-- Flushing the oldest immutable table to level 0 does not change any
point lookup: the flushed table moves from the last-checked immutable slot
to the first-checked level-0 slot, with the same lookup results. -/
theorem getEntry_flush (s : LSM) (t : MemTable) (rest : List MemTable)
    (himm : s.immutableTables = t :: rest) (hnd : MemKeysNodup t)
    (k : List Nat) :
    svcGetEntry (flushImmutableTableInternal s) k = svcGetEntry s k := by
  unfold flushImmutableTableInternal
  split
  · next heq =>
    simp [himm] at heq
  · next t2 rest2 heq =>
    rw [himm] at heq
    injection heq with h1 h2
    subst h1
    subst h2
    by_cases hempty : t.GetAllEntries.isEmpty
    · rw [if_pos hempty]
      simp only [svcGetEntry]
      rw [himm]
      rw [show findRev (fun t2 => t2.Get k) (t :: rest) =
        (findRev (fun t2 => t2.Get k) rest <|> t.Get k) from rfl]
      rw [mem_get_empty t hempty k, orElse_none_right]
    · rw [if_neg hempty]
      simp only [svcGetEntry]
      rw [himm]
      rw [show (10 : Nat) = 9 + 1 from rfl]
      conv_lhs => rw [lookupLevels_succ]
      conv_rhs => rw [lookupLevels_succ]
      rw [lookupLevels_congr
        (fun lvl => if lvl = 0 then
            s.sstablesByLevel 0 ++ [buildSSTable t.GetAllEntries]
          else s.sstablesByLevel lvl)
        s.sstablesByLevel k (0 + 1) 9
        (fun j hj => by simp [show ¬ j = 0 by omega])]
      rw [if_pos (show (0 : Nat) = 0 from rfl)]
      rw [findRev_append]
      rw [show findRev (fun t2 => sstGet t2.entries k)
          [buildSSTable t.GetAllEntries] =
        (none <|> sstGet (buildSSTable t.GetAllEntries).entries k) from rfl]
      rw [orElse_none_left, sstGet_build_eq_get t hnd k]
      rw [show findRev (fun t2 => t2.Get k) (t :: rest) =
        (findRev (fun t2 => t2.Get k) rest <|> t.Get k) from rfl]
      simp only [orElse_assoc]

/-- Rotation (seal + enqueue + fresh table + flush) does not change any
point lookup. -/
theorem getEntry_rotate (s : LSM) (hwf : wfLSM s) (k : List Nat) :
    svcGetEntry (rotateMemTable s) k = svcGetEntry s k := by
  obtain ⟨hro, hnodup, himms⟩ := hwf
  unfold rotateMemTable createNewActiveTable
  cases himm : s.immutableTables with
  | nil =>
    rw [getEntry_flush _ s.activeTable.SetReadOnly [] (by simp [himm])
      (by exact hnodup) k]
    simp only [svcGetEntry]
    rw [himm]
    rw [show (NewMemTable s.maxTableSize).Get k = none from rfl,
      orElse_none_left]
    rw [show findRev (fun t2 => t2.Get k) ([] ++ [s.activeTable.SetReadOnly]) =
      (none <|> s.activeTable.SetReadOnly.Get k) from rfl]
    rw [orElse_none_left]
    rw [show s.activeTable.SetReadOnly.Get k = s.activeTable.Get k from rfl]
    rw [show findRev (fun t2 => t2.Get k) ([] : List MemTable) = none from rfl]
    rw [orElse_none_left]
  | cons t0 rest0 =>
    rw [getEntry_flush _ t0 (rest0 ++ [s.activeTable.SetReadOnly])
      (by simp [himm]) (himms t0 (by simp [himm])) k]
    simp only [svcGetEntry]
    rw [himm]
    rw [show (NewMemTable s.maxTableSize).Get k = none from rfl,
      orElse_none_left]
    rw [findRev_append]
    rw [show findRev (fun t2 => t2.Get k) [s.activeTable.SetReadOnly] =
      (none <|> s.activeTable.SetReadOnly.Get k) from rfl]
    rw [orElse_none_left]
    rw [show s.activeTable.SetReadOnly.Get k = s.activeTable.Get k from rfl]
    rw [orElse_assoc]

theorem wf_flush (s : LSM) (h : wfLSM s) :
    wfLSM (flushImmutableTableInternal s) := by
  obtain ⟨h1, h2, h3⟩ := h
  unfold flushImmutableTableInternal
  split
  · exact ⟨h1, h2, h3⟩
  · next t rest heq =>
    split
    · exact ⟨h1, h2, fun t2 ht2 =>
        h3 t2 (by rw [heq]; exact List.mem_cons_of_mem _ ht2)⟩
    · exact ⟨h1, h2, fun t2 ht2 =>
        h3 t2 (by rw [heq]; exact List.mem_cons_of_mem _ ht2)⟩

theorem wf_rotate (s : LSM) (h : wfLSM s) : wfLSM (rotateMemTable s) := by
  obtain ⟨h1, h2, h3⟩ := h
  unfold rotateMemTable createNewActiveTable
  apply wf_flush
  refine ⟨rfl, by simp [MemKeysNodup, NewMemTable], ?_⟩
  intro t ht
  rcases List.mem_append.1 ht with hin | hin
  · exact h3 t hin
  · simp only [List.mem_singleton] at hin
    subst hin
    exact h2

theorem wf_svcWriteRetry (s : LSM) (e : Entry) (h : wfLSM s) :
    wfLSM (svcWriteRetry s e) := by
  obtain ⟨h1, h2, h3⟩ := h
  unfold svcWriteRetry
  split
  · next mt hok =>
    have parts := memWrite_ok_parts _ _ _ hok
    exact ⟨by rw [parts.2.1]; exact h1, memWrite_nodup _ _ _ hok h2, h3⟩
  · exact ⟨h1, h2, h3⟩

theorem wf_svcWriteCore (s : LSM) (e : Entry) (h : wfLSM s) :
    wfLSM (svcWriteCore s e) := by
  unfold svcWriteCore
  split
  · next mt hok =>
    obtain ⟨h1, h2, h3⟩ := h
    have parts := memWrite_ok_parts _ _ _ hok
    exact ⟨by rw [parts.2.1]; exact h1, memWrite_nodup _ _ _ hok h2, h3⟩
  · exact wf_svcWriteRetry _ _ (wf_rotate _ h)
  · exact h

theorem wf_svcWrite (s : LSM) (e : Entry) (h : wfLSM s) :
    wfLSM (svcWrite s e) := by
  unfold svcWrite
  apply wf_svcWriteCore
  obtain ⟨h1, h2, h3⟩ := h
  exact ⟨h1, h2, h3⟩

/-- A successful write is immediately visible: `get` on the written key
finds exactly the written entry. -/
theorem getEntry_svcWriteCore_self (s : LSM) (e : Entry) (hwf : wfLSM s)
    (hmax : 0 < s.maxTableSize) :
    svcGetEntry (svcWriteCore s e) e.key = some e := by
  obtain ⟨hro, hnodup, himms⟩ := hwf
  unfold svcWriteCore
  split
  · next mt hok =>
    simp only [svcGetEntry]
    rw [memWrite_ok_get_self _ _ _ hok, orElse_some_left]
  · next hfull =>
    unfold svcWriteRetry
    split
    · next mt2 hok2 =>
      simp only [svcGetEntry]
      rw [memWrite_ok_get_self _ _ _ hok2, orElse_some_left]
    · next err herr =>
      exfalso
      rw [rotate_activeTable, memWrite_fresh s.maxTableSize e hmax] at herr
      simp at herr
  · next hroerr =>
    exact absurd hroerr (memWrite_not_readOnly_err _ _ hro)

/-- A write leaves lookups of every other key unchanged. -/
theorem getEntry_svcWriteCore_ne (s : LSM) (e : Entry) (k : List Nat)
    (hwf : wfLSM s) (hne : e.key ≠ k) :
    svcGetEntry (svcWriteCore s e) k = svcGetEntry s k := by
  have hwf2 := hwf
  obtain ⟨hro, hnodup, himms⟩ := hwf
  unfold svcWriteCore
  split
  · next mt hok =>
    simp only [svcGetEntry]
    rw [memWrite_ok_get_ne _ _ _ k hok hne]
  · next hfull =>
    unfold svcWriteRetry
    split
    · next mt2 hok2 =>
      have hstep : svcGetEntry
          { rotateMemTable s with activeTable := mt2 } k =
          svcGetEntry (rotateMemTable s) k := by
        simp only [svcGetEntry]
        rw [memWrite_ok_get_ne _ _ _ k hok2 hne]
      rw [hstep]
      exact getEntry_rotate s hwf2 k
    · next herr =>
      exact getEntry_rotate s hwf2 k
  · rfl

theorem getEntry_svcWrite_self (s : LSM) (e : Entry) (hwf : wfLSM s)
    (hmax : 0 < s.maxTableSize) :
    svcGetEntry (svcWrite s e) e.key = some e := by
  unfold svcWrite
  refine getEntry_svcWriteCore_self _ e ?_ hmax
  obtain ⟨h1, h2, h3⟩ := hwf
  exact ⟨h1, h2, h3⟩

theorem getEntry_svcWrite_ne (s : LSM) (e : Entry) (k : List Nat)
    (hwf : wfLSM s) (hne : e.key ≠ k) :
    svcGetEntry (svcWrite s e) k = svcGetEntry s k := by
  unfold svcWrite
  have h := getEntry_svcWriteCore_ne { s with wal := s.wal ++ [e] } e k
    (by obtain ⟨h1, h2, h3⟩ := hwf; exact ⟨h1, h2, h3⟩) hne
  exact h

theorem getEntry_applyOp_ne (s : LSM) (op : Op) (ts : Int) (k : List Nat)
    (hwf : wfLSM s) (hne : op.key ≠ k) :
    svcGetEntry (applyOp s op ts) k = svcGetEntry s k := by
  cases op with
  | put k2 v2 => exact getEntry_svcWrite_ne s _ k hwf hne
  | del k2 => exact getEntry_svcWrite_ne s _ k hwf hne

theorem svcGet_applyOp_ne (s : LSM) (op : Op) (ts : Int) (k : List Nat)
    (hwf : wfLSM s) (hne : op.key ≠ k) :
    svcGet (applyOp s op ts) k = svcGet s k := by
  unfold svcGet
  rw [getEntry_applyOp_ne s op ts k hwf hne]

theorem wf_applyOp (s : LSM) (op : Op) (ts : Int) (h : wfLSM s) :
    wfLSM (applyOp s op ts) := by
  cases op with
  | put k2 v2 => exact wf_svcWrite _ _ h
  | del k2 => exact wf_svcWrite _ _ h

theorem maxTableSize_applyOp (s : LSM) (op : Op) (ts : Int) :
    (applyOp s op ts).maxTableSize = s.maxTableSize := by
  cases op with
  | put k2 v2 => exact svcWrite_maxTableSize _ _
  | del k2 => exact svcWrite_maxTableSize _ _

theorem wf_runOps (s : LSM) (ops : List Op) (t0 : Int) (h : wfLSM s) :
    wfLSM (runOps s ops t0) := by
  induction ops generalizing s t0 with
  | nil => exact h
  | cons op rest ih => exact ih _ _ (wf_applyOp s op t0 h)

theorem maxTableSize_runOps (s : LSM) (ops : List Op) (t0 : Int) :
    (runOps s ops t0).maxTableSize = s.maxTableSize := by
  induction ops generalizing s t0 with
  | nil => rfl
  | cons op rest ih =>
    show (runOps (applyOp s op t0) rest (t0 + 1)).maxTableSize = _
    rw [ih, maxTableSize_applyOp]

theorem runOps_append (s : LSM) (l1 l2 : List Op) (t0 : Int) :
    runOps s (l1 ++ l2) t0 =
      runOps (runOps s l1 t0) l2 (t0 + l1.length) := by
  induction l1 generalizing s t0 with
  | nil => simp [runOps]
  | cons op rest ih =>
    show runOps (applyOp s op t0) (rest ++ l2) (t0 + 1) = _
    rw [ih]
    congr 1
    simp only [List.length_cons]
    push_cast
    ring

theorem wf_newService (n : Nat) : wfLSM (NewLSMTableService n) := by
  refine ⟨rfl, ?_, ?_⟩
  · simp [NewLSMTableService, createNewActiveTable, NewMemTable, MemKeysNodup]
  · intro t ht
    simp [NewLSMTableService, createNewActiveTable] at ht

/-- Once `get(k)` yields `v`, it keeps yielding `v` across any further
operations that either re-put the same value or touch other keys. -/
theorem runOps_get_stable_some (s : LSM) (ops : List Op) (t0 : Int)
    (k v : List Nat) (hwf : wfLSM s) (hmax : 0 < s.maxTableSize)
    (hops : ∀ op ∈ ops, op = Op.put k v ∨ op.key ≠ k)
    (hget : svcGet s k = some v) :
    svcGet (runOps s ops t0) k = some v := by
  induction ops generalizing s t0 with
  | nil => exact hget
  | cons op rest ih =>
    show svcGet (runOps (applyOp s op t0) rest (t0 + 1)) k = some v
    refine ih (applyOp s op t0) (t0 + 1) (wf_applyOp s op t0 hwf)
      (by rw [maxTableSize_applyOp]; exact hmax)
      (fun op2 h2 => hops op2 (List.mem_cons_of_mem _ h2)) ?_
    rcases hops op (List.mem_cons_self _ _) with hput | hne
    · subst hput
      have hself := getEntry_svcWrite_self s (NewPutEntry k v t0) hwf hmax
      unfold svcGet
      rw [show svcGetEntry (applyOp s (Op.put k v) t0) k =
        some (NewPutEntry k v t0) from hself]
      simp [Entry.IsDeleted, NewPutEntry]
    · rw [svcGet_applyOp_ne s op t0 k hwf hne]
      exact hget

/-- Once `get(k)` yields NotFound, it keeps doing so across any further
operations that either re-delete `k` or touch other keys. -/
theorem runOps_get_stable_none (s : LSM) (ops : List Op) (t0 : Int)
    (k : List Nat) (hwf : wfLSM s) (hmax : 0 < s.maxTableSize)
    (hops : ∀ op ∈ ops, op = Op.del k ∨ op.key ≠ k)
    (hget : svcGet s k = none) :
    svcGet (runOps s ops t0) k = none := by
  induction ops generalizing s t0 with
  | nil => exact hget
  | cons op rest ih =>
    show svcGet (runOps (applyOp s op t0) rest (t0 + 1)) k = none
    refine ih (applyOp s op t0) (t0 + 1) (wf_applyOp s op t0 hwf)
      (by rw [maxTableSize_applyOp]; exact hmax)
      (fun op2 h2 => hops op2 (List.mem_cons_of_mem _ h2)) ?_
    rcases hops op (List.mem_cons_self _ _) with hdel | hne
    · subst hdel
      have hself := getEntry_svcWrite_self s (NewDeleteEntry k t0) hwf hmax
      unfold svcGet
      rw [show svcGetEntry (applyOp s (Op.del k) t0) k =
        some (NewDeleteEntry k t0) from hself]
      simp [Entry.IsDeleted, NewDeleteEntry]
    · rw [svcGet_applyOp_ne s op t0 k hwf hne]
      exact hget

/-- **C1**.  For every operation sequence containing `put(k, v)` with no
later `delete(k)` and no later `put(k, v')` for a different value, a
subsequent `get(k)` returns `v` — whether the entry still sits in the
active MemTable or has been rotated and flushed into an SSTable. -/
theorem engine_put_then_get (maxSize : Nat) (hmax : 0 < maxSize)
    (pre post : List Op) (k v : List Nat) (t0 : Int)
    (hpost : ∀ op ∈ post, op = Op.put k v ∨ op.key ≠ k) :
    svcGet (runOps (NewLSMTableService maxSize)
      (pre ++ Op.put k v :: post) t0) k = some v := by
  rw [runOps_append]
  have hwf1 : wfLSM (runOps (NewLSMTableService maxSize) pre t0) :=
    wf_runOps _ _ _ (wf_newService maxSize)
  have hmax1 : 0 < (runOps (NewLSMTableService maxSize) pre t0).maxTableSize := by
    rw [maxTableSize_runOps]
    exact hmax
  show svcGet (runOps
    (applyOp (runOps (NewLSMTableService maxSize) pre t0) (Op.put k v)
      (t0 + pre.length)) post ((t0 + pre.length) + 1)) k = some v
  refine runOps_get_stable_some _ post _ k v
    (wf_applyOp _ _ _ hwf1)
    (by rw [maxTableSize_applyOp]; exact hmax1) hpost ?_
  have hself := getEntry_svcWrite_self (runOps (NewLSMTableService maxSize) pre t0)
    (NewPutEntry k v (t0 + pre.length)) hwf1 hmax1
  unfold svcGet
  rw [show svcGetEntry (applyOp (runOps (NewLSMTableService maxSize) pre t0)
      (Op.put k v) (t0 + pre.length)) k =
    some (NewPutEntry k v (t0 + pre.length)) from hself]
  simp [Entry.IsDeleted, NewPutEntry]

/-- Witness for C1: `max_memtable_entries = 2`, with enough puts before and
after the tracked `put([4],[40])` to force MemTable rotation and a flush to
a level-0 SSTable. -/
theorem engine_put_then_get_witness :
    (0 < 2) ∧
    (∀ op ∈ [Op.del [2], Op.put [5] [50]],
      op = Op.put [4] [40] ∨ op.key ≠ [4]) ∧
    svcGet (runOps (NewLSMTableService 2)
      ([Op.put [1] [10], Op.put [2] [20], Op.put [3] [30]] ++
        Op.put [4] [40] :: [Op.del [2], Op.put [5] [50]]) 0) [4] = some [40] :=
  ⟨by decide, by decide,
    engine_put_then_get 2 (by decide) _ _ [4] [40] 0 (by decide)⟩

/-- Supporting result: over the foreground write path alone (no background
compaction dispatched), a `delete(k)` with no later `put(k, _)` makes
`get(k)` return NotFound, wherever the tombstone or an older PUT resides
among the layers that path populates.  The full claim, which also covers
SSTables reorganized by compaction, fails on the code: see
`engine_delete_then_get_compaction_bug`. -/
theorem engine_delete_then_get (maxSize : Nat) (hmax : 0 < maxSize)
    (pre post : List Op) (k : List Nat) (t0 : Int)
    (hpost : ∀ op ∈ post, op = Op.del k ∨ op.key ≠ k) :
    svcGet (runOps (NewLSMTableService maxSize)
      (pre ++ Op.del k :: post) t0) k = none := by
  rw [runOps_append]
  have hwf1 : wfLSM (runOps (NewLSMTableService maxSize) pre t0) :=
    wf_runOps _ _ _ (wf_newService maxSize)
  have hmax1 : 0 < (runOps (NewLSMTableService maxSize) pre t0).maxTableSize := by
    rw [maxTableSize_runOps]
    exact hmax
  show svcGet (runOps
    (applyOp (runOps (NewLSMTableService maxSize) pre t0) (Op.del k)
      (t0 + pre.length)) post ((t0 + pre.length) + 1)) k = none
  refine runOps_get_stable_none _ post _ k
    (wf_applyOp _ _ _ hwf1)
    (by rw [maxTableSize_applyOp]; exact hmax1) hpost ?_
  have hself := getEntry_svcWrite_self (runOps (NewLSMTableService maxSize) pre t0)
    (NewDeleteEntry k (t0 + pre.length)) hwf1 hmax1
  unfold svcGet
  rw [show svcGetEntry (applyOp (runOps (NewLSMTableService maxSize) pre t0)
      (Op.del k) (t0 + pre.length)) k =
    some (NewDeleteEntry k (t0 + pre.length)) from hself]
  simp [Entry.IsDeleted, NewDeleteEntry]

/-- Concrete instance of the foreground-only result: the PUT of `[1]`
lands in an SSTable via rotation; the later tombstone shadows it and
`get([1])` reports NotFound. -/
theorem engine_delete_then_get_witness :
    (0 < 2) ∧
    (∀ op ∈ [Op.put [6] [60]], op = Op.del [1] ∨ op.key ≠ [1]) ∧
    svcGet (runOps (NewLSMTableService 2)
      ([Op.put [1] [10], Op.put [2] [20], Op.put [3] [30]] ++
        Op.del [1] :: [Op.put [6] [60]]) 0) [1] = none :=
  ⟨by decide, by decide,
    engine_delete_then_get 2 (by decide) _ _ [1] 0 (by decide)⟩

/-- **C2** (code bug).  The claim fails once background compaction runs.
Concretely, on a `max_memtable_entries = 2` engine with the leveled
strategy: nine puts of two-byte keys (`"aa"` = `[97,97]` with value `[1]`
among them) fill four level-0 tables, and the first compaction merges
them into one level-1 table still holding `put("aa", [1])`.  Then
`delete("aa")` followed by seven puts of one-byte keys fills four fresh
level-0 tables, the first holding the tombstone; at that point `get("aa")`
correctly reports NotFound.  The second compaction, however, (i) skips the
level-1 table — `findOverlappingTables` compares the union range
`[[98], [105]]` against `[[97,97], [104,104]]` with the length-first
`compareKeys`, which declares the one-byte maximum `[105]` smaller than
the two-byte `[97,97]` although the ranges overlap lexicographically —
and (ii) elides the tombstone from its output unconditionally
(`removeDuplicatesAndTombstones`).  The tombstone is gone, the shadowed
level-1 entry survives, and `get("aa")` returns the stale `[1]` even
though the `delete("aa")` had no later `put("aa", _)`. -/
theorem engine_delete_then_get_compaction_bug :
    svcGet (runOps (runCompactionL0
        (runOps (NewLSMTableService 2)
          [Op.put [97, 97] [1], Op.put [98, 98] [2], Op.put [99, 99] [3],
           Op.put [100, 100] [4], Op.put [101, 101] [5], Op.put [102, 102] [6],
           Op.put [103, 103] [7], Op.put [104, 104] [8], Op.put [105] [9]] 0))
        [Op.del [97, 97], Op.put [98] [20], Op.put [99] [30], Op.put [100] [40],
         Op.put [101] [50], Op.put [102] [60], Op.put [103] [70],
         Op.put [106] [80]] 9)
      [97, 97] = none ∧
    svcGet (runCompactionL0 (runOps (runCompactionL0
        (runOps (NewLSMTableService 2)
          [Op.put [97, 97] [1], Op.put [98, 98] [2], Op.put [99, 99] [3],
           Op.put [100, 100] [4], Op.put [101, 101] [5], Op.put [102, 102] [6],
           Op.put [103, 103] [7], Op.put [104, 104] [8], Op.put [105] [9]] 0))
        [Op.del [97, 97], Op.put [98] [20], Op.put [99] [30], Op.put [100] [40],
         Op.put [101] [50], Op.put [102] [60], Op.put [103] [70],
         Op.put [106] [80]] 9))
      [97, 97] = some [1] := by decide
